import Mathlib

/-!
# Verification of the CPU scheduler simulation (`schedule.cpp`)

A shallow embedding of the scheduler core of `schedule.cpp`: the process
records, the ready queue, the blocked set with its stable ordering, the
sub-stepped dispatch loop (`Simulation::run`), the blocked-set advance
(`Simulation::advance_blocked`) and the final statistics report
(`Simulation::print_stats_and_finish`).  C++ `int` values are modelled as
`Int`; container pointers (`Proc*`) are modelled as indices into the
process arena.  Each `log_*` call is modelled as appending a record to an
event trace.
-/

namespace Sched

/-- `enum class Strategy { FCFS, RR }`. -/
inductive Strategy where
  | FCFS
  | RR
deriving DecidableEq, Repr

/-- The reason passed to `log_cpuburst_execution`. -/
inductive Reason where
  | enterIo
  | quantumExpired
  | completed
deriving DecidableEq, Repr

/-- One `log_cpuburst_execution(pid, executed_cpu, executed_io, time, reason)` call. -/
structure Event where
  pid : Nat
  executed_cpu : Int
  executed_io : Int
  time : Int
  reason : Reason
deriving DecidableEq, Repr

/-- `struct Proc` of `schedule.cpp`. `bursts` is the remaining burst deque
(front = current burst); `completion_time` starts at `-1`. -/
structure Proc where
  pid : Nat
  bursts : List Int
  executed_cpu : Int
  executed_io : Int
  total_cpu : Int
  total_io : Int
  completion_time : Int
deriving DecidableEq, Repr

instance : Inhabited Proc := ⟨⟨0, [], 0, 0, 0, 0, -1⟩⟩

/-- `struct BlockedItem { Proc* p; int remaining_io; size_t order; }`;
the pointer is modelled by the process index. -/
structure BlockedItem where
  pid : Nat
  remaining_io : Int
  order : Nat
deriving DecidableEq, Repr

instance : Inhabited BlockedItem := ⟨⟨0, 0, 0⟩⟩

/-- Stable insertion of `x` into `l`: `x` goes in front of the first element
that is not strictly below it (the `std::stable_sort` placement rule for
equivalent elements). -/
def insSorted {α : Type} (lt : α → α → Bool) (x : α) : List α → List α
  | [] => [x]
  | y :: ys => if lt y x then y :: insSorted lt x ys else x :: y :: ys

/-- The model of `std::stable_sort` on a strict-weak-order comparator `lt`,
realised as insertion sort (which is stable, hence produces the same list as
`std::stable_sort`). -/
def stableSortBy {α : Type} (lt : α → α → Bool) : List α → List α
  | [] => []
  | x :: xs => insSorted lt x (stableSortBy lt xs)

/-- Sortedness for a `stableSortBy` result: consecutive elements are never
strictly inverted. -/
def SortedLt {α : Type} (lt : α → α → Bool) (l : List α) : Prop :=
  l.Pairwise (fun a b => lt b a = false)

/-- The comparator handed to `std::stable_sort` in `stable_sort_blocked`:
strictly less when `remaining_io` is smaller, ties broken by smaller
`order`. -/
def cmpB (a b : BlockedItem) : Bool :=
  if a.remaining_io = b.remaining_io then decide (a.order < b.order)
  else decide (a.remaining_io < b.remaining_io)

/-- `stable_sort_blocked`. -/
def sortB (l : List BlockedItem) : List BlockedItem := stableSortBy cmpB l

/-- Sum of the even positions (0, 2, 4, …) of a burst list — the CPU bursts
when the list starts with a CPU burst. -/
def sumEven : List Int → Int
  | [] => 0
  | [x] => x
  | x :: _ :: xs => x + sumEven xs

/-- Sum of the odd positions (1, 3, 5, …) of a burst list — the I/O bursts
when the list starts with a CPU burst. -/
def sumOdd : List Int → Int
  | [] => 0
  | [_] => 0
  | _ :: y :: xs => y + sumOdd xs

/-- Update the process at index `i` (the model of writing through a
`Proc*`); out-of-range indices leave the arena unchanged. -/
def updAt : List Proc → Nat → (Proc → Proc) → List Proc
  | [], _, _ => []
  | p :: ps, 0, f => f p :: ps
  | p :: ps, n + 1, f => p :: updAt ps n f

/-- The whole mutable state of `struct Simulation`. -/
structure Sim where
  strategy : Strategy
  quantum : Int
  time_elapsed : Int
  ready : List Nat
  blocked : List BlockedItem
  procs : List Proc
  completed : List (Int × Nat)
  order_counter : Nat
  events : List Event
deriving DecidableEq, Repr

instance : Inhabited Sim := ⟨⟨Strategy.FCFS, 2, 0, [], [], [], [], 0, []⟩⟩

/-- Read the process behind index `i` (the model of dereferencing `Proc*`). -/
def getP (s : Sim) (i : Nat) : Proc := s.procs.getD i default

/-- Decrement the front of a burst deque (`p->bursts.front() -= d`). -/
def decFront (l : List Int) (d : Int) : List Int :=
  match l with
  | [] => []
  | x :: xs => (x - d) :: xs

/-- One iteration of the `while` loop in `Simulation::advance_blocked`:
sort, advance every entry by `min(step, remaining)`, credit the I/O to each
process, then move the entries that reached zero (in sorted order) to the
ready queue after consuming their I/O burst.  Returns the new state and the
remaining advance amount `t - step`. -/
def abIter (s : Sim) (t : Int) : Sim × Int :=
  let sorted := sortB s.blocked
  let step := min (sorted.headD default).remaining_io t
  let procs1 := sorted.foldl (fun ps bi =>
    updAt ps bi.pid (fun p => {p with executed_io := p.executed_io + min step bi.remaining_io})) s.procs
  let newBlocked := sorted.map (fun bi =>
    {bi with remaining_io := bi.remaining_io - min step bi.remaining_io})
  let fin := newBlocked.filter (fun bi => bi.remaining_io = 0)
  let keep := newBlocked.filter (fun bi => ¬ bi.remaining_io = 0)
  let procs2 := fin.foldl (fun ps bi =>
    updAt ps bi.pid (fun p => {p with bursts := p.bursts.tail})) procs1
  (⟨s.strategy, s.quantum, s.time_elapsed,
    s.ready ++ fin.map (fun bi => bi.pid), keep, procs2,
    s.completed, s.order_counter, s.events⟩, t - step)

/-- `Simulation::advance_blocked(int dt)`: advance all blocked entries by
`dt`, repeatedly stepping to the next finishing entry; entries that reach
zero consume their I/O burst and are appended to the ready queue in the
current (sorted) order. A non-positive `dt` skips the loop entirely. -/
def advanceBlocked (s : Sim) (t : Int) : Sim :=
  if _h : 0 < t ∧ s.blocked ≠ [] then
    advanceBlocked (abIter s t).1 (abIter s t).2
  else s
termination_by (s.blocked.length, t.toNat)
decreasing_by
  -- self-contained termination argument: each iteration either removes the
  -- earliest entry from the blocked deque or exhausts the advance amount
  have hlen1 : ∀ (x : BlockedItem) (l : List BlockedItem),
      (insSorted cmpB x l).length = l.length + 1 := by
    intro x l
    induction l with
    | nil => rfl
    | cons y ys ih =>
      by_cases h : cmpB y x
      · simp [insSorted, h, ih]
      · simp [insSorted, h]
  have hlen : ∀ l : List BlockedItem, (sortB l).length = l.length := by
    intro l
    induction l with
    | nil => rfl
    | cons x xs ih =>
      have ih2 : (stableSortBy cmpB xs).length = xs.length := ih
      show (insSorted cmpB x (stableSortBy cmpB xs)).length = xs.length + 1
      rw [hlen1, ih2]
  obtain ⟨bi, rest, hs⟩ : ∃ bi rest, sortB s.blocked = bi :: rest := by
    cases h : sortB s.blocked with
    | nil =>
      have h2 := hlen s.blocked
      rw [h] at h2
      rcases hsb : s.blocked with _ | ⟨c, cs⟩
      · exact absurd hsb _h.2
      · rw [hsb] at h2
        simp at h2
    | cons a as => exact ⟨a, as, rfl⟩
  have hlen2 : rest.length + 1 = s.blocked.length := by
    have h2 := hlen s.blocked
    rw [hs] at h2
    simpa using h2
  by_cases hle : bi.remaining_io ≤ t
  · have hstep : min (((bi :: rest).headD default).remaining_io) t = bi.remaining_io := by
      simp [min_eq_left hle]
    have hkey : (abIter s t).1.blocked.length < s.blocked.length := by
      simp only [abIter, hs, hstep]
      have hhead : (fun x : BlockedItem => decide (¬ x.remaining_io = 0))
          ({bi with remaining_io := bi.remaining_io - min bi.remaining_io bi.remaining_io}) = false := by
        simp
      have hfml : ∀ (f : BlockedItem → BlockedItem) (p : BlockedItem → Bool) (x : BlockedItem)
          (l : List BlockedItem), p (f x) = false →
          (((x :: l).map f).filter p).length ≤ l.length := by
        intro f p x l hx
        rw [List.map_cons, List.filter_cons, hx]
        simpa using List.length_filter_le p (l.map f)
      have := hfml
        (fun x : BlockedItem =>
          {x with remaining_io := x.remaining_io - min bi.remaining_io x.remaining_io})
        (fun x : BlockedItem => decide (¬ x.remaining_io = 0)) bi rest hhead
      omega
    exact Prod.Lex.left _ _ hkey
  · push_neg at hle
    have hstep : min (((bi :: rest).headD default).remaining_io) t = t := by
      simp [min_eq_right hle.le]
    have hk1 : (abIter s t).1.blocked.length ≤ s.blocked.length := by
      simp only [abIter, hs, hstep]
      have := List.length_filter_le (fun x : BlockedItem => decide (¬ x.remaining_io = 0))
        ((bi :: rest).map (fun x : BlockedItem =>
          {x with remaining_io := x.remaining_io - min t x.remaining_io}))
      simp only [List.length_map, List.length_cons] at this
      omega
    have hk2 : (abIter s t).2.toNat < t.toNat := by
      simp only [abIter, hs, hstep]
      omega
    rcases Nat.lt_or_ge (abIter s t).1.blocked.length s.blocked.length with h4 | h4
    · exact Prod.Lex.left _ _ h4
    · have h5 : (abIter s t).1.blocked.length = s.blocked.length := le_antisymm hk1 h4
      rw [h5]
      exact Prod.Lex.right _ hk2

/-- `Simulation::move_to_blocked(Proc* p)`: drop a leading zero CPU burst,
then (if any burst is left) read the front I/O burst and insert the process
into the blocked deque, which is immediately re-sorted. -/
def moveToBlocked (s : Sim) (pid : Nat) : Sim :=
  let s1 :=
    if (getP s pid).bursts ≠ [] ∧ (getP s pid).bursts.headD 1 = 0 then
      {s with procs := updAt s.procs pid (fun p => {p with bursts := p.bursts.tail})}
    else s
  if (getP s1 pid).bursts ≠ [] then
    let io := (getP s1 pid).bursts.headD 0
    {s1 with blocked := sortB (s1.blocked ++ [⟨pid, io, s1.order_counter⟩]),
             order_counter := s1.order_counter + 1}
  else s1

/-- The sub-step size chosen inside the inner `while (remaining > 0)` loop
of `Simulation::run`: the whole remaining segment, clipped to the soonest
positive blocked completion when the blocked deque is non-empty. -/
def stepOf (blocked : List BlockedItem) (remaining : Int) : Int :=
  match sortB blocked with
  | [] => remaining
  | bi :: _ => if 0 < bi.remaining_io then min remaining bi.remaining_io else remaining

/-- The state mutation of one inner sub-step before the blocked deque is
advanced: the in-place `stable_sort_blocked`, then
`p->executed_cpu += step; time_elapsed += step; p->bursts.front() -= step`. -/
def subStepState (s : Sim) (pid : Nat) (step : Int) : Sim :=
  let s1 := {s with blocked := sortB s.blocked}
  {s1 with
    procs := updAt s1.procs pid (fun p =>
      {p with executed_cpu := p.executed_cpu + step, bursts := decFront p.bursts step}),
    time_elapsed := s1.time_elapsed + step}

/-- The inner `while (remaining > 0)` loop of `Simulation::run`: pick the
sub-step, charge it to the running process (`executed_cpu`, front burst) and
to the global clock, let the blocked deque progress by the same amount, and
repeat. -/
def subStepLoop (s : Sim) (pid : Nat) (remaining : Int) : Sim :=
  if _h : 0 < remaining then
    let step := stepOf s.blocked remaining
    subStepLoop (advanceBlocked (subStepState s pid step) step) pid (remaining - step)
  else s
termination_by remaining.toNat
decreasing_by
  have h1 : 1 ≤ stepOf s.blocked remaining ∧ stepOf s.blocked remaining ≤ remaining := by
    unfold stepOf
    split
    · omega
    · rename_i bi rest _
      by_cases hb : 0 < bi.remaining_io
      · rw [if_pos hb]
        exact ⟨le_min (by omega) hb, min_le_left _ _⟩
      · rw [if_neg hb]
        omega
  omega

/-- The CPU segment computed at dispatch: the full remaining CPU burst under
FCFS, `min(remaining, quantum)` under RR. -/
def segOf (s : Sim) (pid : Nat) : Int :=
  if s.strategy = Strategy.FCFS then (getP s pid).bursts.headD 0
  else min ((getP s pid).bursts.headD 0) s.quantum

/-- The branching after the CPU segment in `Simulation::run`: pop a finished
CPU burst and either record completion, or log "entering I/O" and move to
the blocked deque; otherwise log "quantum expired" and re-enqueue at the
back of the ready queue. -/
def afterSegment (s1 : Sim) (pid : Nat) : Sim :=
  let p1 := getP s1 pid
  if p1.bursts.headD 0 = 0 then
    let s2 := {s1 with procs := updAt s1.procs pid (fun q => {q with bursts := q.bursts.tail})}
    let p2 := getP s2 pid
    if p2.bursts.isEmpty then
      {s2 with
        procs := updAt s2.procs pid (fun q => {q with completion_time := s2.time_elapsed}),
        completed := s2.completed ++ [(s2.time_elapsed, pid)],
        events := s2.events ++ [⟨pid, p2.executed_cpu, p2.executed_io, s2.time_elapsed, Reason.completed⟩]}
    else
      moveToBlocked {s2 with
        events := s2.events ++ [⟨pid, p2.executed_cpu, p2.executed_io, s2.time_elapsed, Reason.enterIo⟩]} pid
  else
    {s1 with
      events := s1.events ++ [⟨pid, p1.executed_cpu, p1.executed_io, s1.time_elapsed, Reason.quantumExpired⟩],
      ready := s1.ready ++ [pid]}

/-- One iteration of the outer `while (true)` dispatch loop of
`Simulation::run`; `none` means both containers are empty and the loop
breaks.  Ready branch: dispatch the head process for one CPU segment and
route it via `afterSegment`.  Idle branch: jump the clock to the earliest
blocked completion. -/
def runStep (s : Sim) : Option Sim :=
  match s.ready with
  | pid :: rest =>
    let s0 := {s with ready := rest}
    some (afterSegment (subStepLoop s0 pid (segOf s0 pid)) pid)
  | [] =>
    match s.blocked with
    | _ :: _ =>
      let s1 := {s with blocked := sortB s.blocked}
      let step := (s1.blocked.headD default).remaining_io
      let s2 := advanceBlocked s1 step
      some {s2 with time_elapsed := s2.time_elapsed + step}
    | [] => none

/-- Iterate `runStep` at most `n` times, stopping at the terminal state. -/
def runFuel : Nat → Sim → Sim
  | 0, s => s
  | n + 1, s =>
    match runStep s with
    | some s' => runFuel n s'
    | none => s

/-- Construction of one `Proc` in `Simulation::init_from_lines`: remaining
bursts start as the original line; `total_cpu`/`total_io` sum the even/odd
positions. -/
def initProc (i : Nat) (l : List Int) : Proc :=
  ⟨i, l, 0, 0, sumEven l, sumOdd l, -1⟩

/-- The process arena built by `init_from_lines`, in file order. -/
def initProcs (i : Nat) : List (List Int) → List Proc
  | [] => []
  | l :: ls => initProc i l :: initProcs (i + 1) ls

/-- The full initial simulation state: every process is seeded into the
ready queue in pid order, clock 0, nothing blocked or completed. -/
def initSim (strategy : Strategy) (quantum : Int) (lines : List (List Int)) : Sim :=
  ⟨strategy, quantum, 0, List.range lines.length, [], initProcs 0 lines, [], 0, []⟩

/-- The comparator `std::stable_sort` uses on `completed`: the default
lexicographic `operator<` on `std::pair<int,int>` (completion time, then
pid). -/
def cmpC (a b : Int × Nat) : Bool :=
  if a.1 = b.1 then decide (a.2 < b.2) else decide (a.1 < b.1)

/-- The `std::stable_sort(completed.begin(), completed.end())` call of
`print_stats_and_finish`, realised as the stable sort on the default
`std::pair` comparator. -/
def sortC (l : List (Int × Nat)) : List (Int × Nat) := stableSortBy cmpC l

/-- `Simulation::print_stats_and_finish`: sort the completion records, then
emit one `log_process_completion(pid, turnaround, wait)` record per entry,
with `turnaround = completion_time` and `wait = turnaround - (total_cpu +
total_io)`. -/
def statsReport (s : Sim) : List (Nat × Int × Int) :=
  (sortC s.completed).map (fun e =>
    let p := getP s e.2
    let turnaround := p.completion_time
    let wait := turnaround - (p.total_cpu + p.total_io)
    (e.2, turnaround, wait))

/-! ### Fuelled evaluators

The loop functions above recurse along a well-founded measure, which the
kernel cannot unfold on concrete inputs.  The following fuelled variants are
structurally recursive (hence kernel-computable) and return `none` exactly
when the fuel runs out; the soundness lemmas transfer any `some` result back
to the faithful definitions, so concrete scenarios can be checked by
`rfl`/`decide`. -/

/-- Fuelled `advanceBlocked`. -/
def advanceBlockedF : Nat → Sim → Int → Option Sim
  | 0, _, _ => none
  | fuel + 1, s, t =>
    if 0 < t ∧ s.blocked ≠ [] then
      advanceBlockedF fuel (abIter s t).1 (abIter s t).2
    else some s

/-- Fuelled `subStepLoop`. -/
def subStepLoopF : Nat → Sim → Nat → Int → Option Sim
  | 0, _, _, _ => none
  | fuel + 1, s, pid, remaining =>
    if 0 < remaining then
      let step := stepOf s.blocked remaining
      match advanceBlockedF (fuel + 1) (subStepState s pid step) step with
      | none => none
      | some s3 => subStepLoopF fuel s3 pid (remaining - step)
    else some s

/-- Fuelled `runStep`: `some none` is the terminal case, outer `none` is
fuel exhaustion. -/
def runStepF (fuel : Nat) (s : Sim) : Option (Option Sim) :=
  match s.ready with
  | pid :: rest =>
    let s0 := {s with ready := rest}
    match subStepLoopF fuel s0 pid (segOf s0 pid) with
    | none => none
    | some s1 => some (some (afterSegment s1 pid))
  | [] =>
    match s.blocked with
    | _ :: _ =>
      let s1 := {s with blocked := sortB s.blocked}
      let step := (s1.blocked.headD default).remaining_io
      match advanceBlockedF fuel s1 step with
      | none => none
      | some s2 => some (some {s2 with time_elapsed := s2.time_elapsed + step})
    | [] => some none

/-- Fuelled `runFuel`. -/
def runFuelF : Nat → Nat → Sim → Option Sim
  | 0, _, s => some s
  | n + 1, fuel, s =>
    match runStepF fuel s with
    | none => none
    | some none => some s
    | some (some s') => runFuelF n fuel s'

/-- Total remaining burst time over the whole process arena; strictly
decreases on every dispatch-loop iteration (the spec's termination
argument). -/
def MiP (ps : List Proc) : Int := (ps.map (fun p => p.bursts.sum)).sum

/-- How often process `j` occurs in a blocked deque. -/
def countB (bl : List BlockedItem) (j : Nat) : Nat := bl.countP (fun bi => bi.pid = j)

/-- How often process `j` occurs in the completion records. -/
def countC (cl : List (Int × Nat)) (j : Nat) : Nat := cl.countP (fun e => e.2 = j)

/-! ### The reachable-state invariant

At a dispatch-loop boundary every process is in exactly one of the ready
queue, the blocked deque, or the completion records; in the middle of a
dispatch (inside the CPU-segment loop) exactly one process is additionally
"running" and is in no container.  The invariant is parameterised by that
optional running process together with the CPU-segment budget it still has
to burn. -/

/-- A process sitting in the ready queue (or newly re-enqueued): its burst
deque starts with a CPU burst, alternates, and the executed counters
complement the remaining bursts. -/
structure ProcReady (p : Proc) : Prop where
  ne : p.bursts ≠ []
  odd : p.bursts.length % 2 = 1
  pos : ∀ b ∈ p.bursts, 1 ≤ b
  cpu : p.executed_cpu + sumEven p.bursts = p.total_cpu
  io : p.executed_io + sumOdd p.bursts = p.total_io

/-- A process in the blocked deque with `rem` I/O still to run: its burst
deque still starts with the *original* I/O burst (the deque is only popped
when the I/O completes), so the CPU bursts sit at the odd positions. -/
structure ProcBlocked (p : Proc) (rem : Int) : Prop where
  ne : p.bursts ≠ []
  even : p.bursts.length % 2 = 0
  pos : ∀ b ∈ p.bursts, 1 ≤ b
  rpos : 1 ≤ rem
  cpu : p.executed_cpu + sumOdd p.bursts = p.total_cpu
  io : p.executed_io + rem + sumOdd p.bursts.tail = p.total_io

/-- The currently dispatched process, which still has `rem` units of its CPU
segment to burn: its front CPU burst is partially consumed but no smaller
than `rem`. -/
structure ProcMid (p : Proc) (rem : Int) : Prop where
  ne : p.bursts ≠ []
  odd : p.bursts.length % 2 = 1
  hge : rem ≤ p.bursts.headD 0
  hnn : 0 ≤ p.bursts.headD 0
  tpos : ∀ b ∈ p.bursts.tail, 1 ≤ b
  cpu : p.executed_cpu + sumEven p.bursts = p.total_cpu
  io : p.executed_io + sumOdd p.bursts = p.total_io

/-- A completed process: everything executed. -/
structure ProcDone (p : Proc) : Prop where
  empty : p.bursts = []
  cpu : p.executed_cpu = p.total_cpu
  io : p.executed_io = p.total_io

/-- The extra occurrence contributed by the running process, if any. -/
def runExtra (r? : Option (Nat × Int)) (j : Nat) : Nat :=
  match r? with
  | none => 0
  | some (r, _) => if j = r then 1 else 0

/-- The global state invariant, parameterised by the optional running
process and its remaining CPU-segment budget. -/
structure InvG (s : Sim) (r? : Option (Nat × Int)) : Prop where
  uniq : ∀ j, j < s.procs.length →
    s.ready.count j + countB s.blocked j + countC s.completed j + runExtra r? j = 1
  readyLt : ∀ j ∈ s.ready, j < s.procs.length
  blockedLt : ∀ bi ∈ s.blocked, bi.pid < s.procs.length
  complLt : ∀ e ∈ s.completed, e.2 < s.procs.length
  readyOk : ∀ j ∈ s.ready, ProcReady (getP s j)
  blockedOk : ∀ bi ∈ s.blocked, ProcBlocked (getP s bi.pid) bi.remaining_io
  complOk : ∀ e ∈ s.completed, ProcDone (getP s e.2)
  complTime : ∀ e ∈ s.completed, (getP s e.2).completion_time = e.1
  timesLe : ∀ e ∈ s.completed, e.1 ≤ s.time_elapsed
  timesInc : s.completed.Pairwise (fun a b => a.1 < b.1)
  timeNN : 0 ≤ s.time_elapsed
  pidOk : ∀ j, j < s.procs.length → (getP s j).pid = j
  qpos : 1 ≤ s.quantum
  runLt : ∀ r rem, r? = some (r, rem) → r < s.procs.length
  runOk : ∀ r rem, r? = some (r, rem) → ProcMid (getP s r) rem ∧ 0 ≤ rem

/-- The boundary-state invariant: no process is running. -/
def Inv (s : Sim) : Prop := InvG s none

/-- The spec's description of the report comparator: completion time alone,
ties left in the original append order.  (The code's `cmpC` additionally
breaks time ties by pid; one C6 conjunct shows both orders agree on every
reachable terminal state.) -/
def cmpTimeOnly (a b : Int × Nat) : Bool := decide (a.1 < b.1)

/-- The report order as the spec words it: a stable sort of the completion
records by completion time. -/
def specSortByCompletionTime (l : List (Int × Nat)) : List (Int × Nat) :=
  stableSortBy cmpTimeOnly l

/-- Well-formed loader output: every burst line is non-empty, of odd length,
and has positive entries (the loader rejects everything else before the
core starts). -/
def WFInput (lines : List (List Int)) : Prop :=
  ∀ l ∈ lines, l ≠ [] ∧ l.length % 2 = 1 ∧ ∀ b ∈ l, 1 ≤ b

/-! ### Named stages of one `advance_blocked` iteration (for the proofs) -/

/-- The `step` chosen by one `advance_blocked` iteration. -/
def abStep (s : Sim) (t : Int) : Int :=
  min ((sortB s.blocked).headD default).remaining_io t

/-- The blocked deque right after one iteration's decrement. -/
def abDecd (s : Sim) (t : Int) : List BlockedItem :=
  (sortB s.blocked).map (fun bi =>
    {bi with remaining_io := bi.remaining_io - min (abStep s t) bi.remaining_io})

/-- The entries whose I/O completed in this iteration, in deque order. -/
def abFin (s : Sim) (t : Int) : List BlockedItem :=
  (abDecd s t).filter (fun bi => bi.remaining_io = 0)

/-- The entries still blocked after this iteration, in deque order. -/
def abKeep (s : Sim) (t : Int) : List BlockedItem :=
  (abDecd s t).filter (fun bi => ¬ bi.remaining_io = 0)

/-- The arena after crediting `executed_io` for this iteration. -/
def abProcs1 (s : Sim) (t : Int) : List Proc :=
  (sortB s.blocked).foldl (fun ps bi =>
    updAt ps bi.pid (fun p =>
      {p with executed_io := p.executed_io + min (abStep s t) bi.remaining_io})) s.procs

/-- The arena after additionally consuming the completed I/O bursts. -/
def abProcs2 (s : Sim) (t : Int) : List Proc :=
  (abFin s t).foldl (fun ps bi =>
    updAt ps bi.pid (fun p => {p with bursts := p.bursts.tail})) (abProcs1 s t)

/-! ### Concrete scenarios -/

/-- Scenario D of the spec: P0 bursts `[2, 3, 2]`, P1 bursts `[5]`, FCFS. -/
def scenD : Sim := initSim Strategy.FCFS 2 [[2, 3, 2], [5]]

/-- Scenario C of the spec: P0 bursts `[4]`, P1 bursts `[4]`, RR quantum 2. -/
def scenC : Sim := initSim Strategy.RR 2 [[4], [4]]

/-- The state reached from scenario C after one dispatch (computed through
the fuelled evaluator so the kernel can evaluate it). -/
def scenC1 : Sim := ((runStepF 100 scenC).getD (some scenC)).getD scenC

/-- A concrete mid-run state whose blocked deque is non-empty: process 0 is
waiting on 3 units of I/O while nothing is ready.  Used to probe
`advance_blocked` with a negative `dt`. -/
def cex7 : Sim :=
  ⟨Strategy.FCFS, 2, 5, [], [⟨0, 3, 0⟩], [⟨0, [3, 2], 2, 0, 4, 3, -1⟩], [], 1, []⟩

/-- Replace only the stored quantum of a state (used to express that the
quantum is dead configuration under FCFS). -/
def setQ (s : Sim) (q : Int) : Sim := {s with quantum := q}

/-! ### Supporting lemmas -/

theorem insSorted_perm {α : Type} (lt : α → α → Bool) (x : α) (l : List α) :
    (insSorted lt x l).Perm (x :: l) := by
  induction l with
  | nil => simp [insSorted]
  | cons y ys ih =>
    by_cases h : lt y x
    · simpa [insSorted, h] using ((ih.cons y).trans (List.Perm.swap x y ys))
    · simp [insSorted, h]

theorem stableSortBy_perm {α : Type} (lt : α → α → Bool) (l : List α) :
    (stableSortBy lt l).Perm l := by
  induction l with
  | nil => simp [stableSortBy]
  | cons x xs ih => exact (insSorted_perm lt x (stableSortBy lt xs)).trans (ih.cons x)

theorem insSorted_sorted {α : Type} (lt : α → α → Bool)
    (hasym : ∀ a b, lt a b = true → lt b a = false)
    (htr : ∀ a b c, lt b a = false → lt c b = false → lt c a = false)
    (x : α) (l : List α) (hl : SortedLt lt l) : SortedLt lt (insSorted lt x l) := by
  induction l with
  | nil => simp [insSorted, SortedLt]
  | cons y ys ih =>
    rcases List.pairwise_cons.mp hl with ⟨hy, hys⟩
    by_cases h : lt y x
    · rw [insSorted, if_pos h]
      refine List.pairwise_cons.mpr ⟨?_, ih hys⟩
      intro z hz
      rcases List.mem_cons.mp ((insSorted_perm lt x ys).mem_iff.mp hz) with hzx | hzys
      · subst hzx
        exact hasym _ _ h
      · exact hy z hzys
    · rw [insSorted, if_neg h]
      refine List.pairwise_cons.mpr ⟨?_, hl⟩
      intro z hz
      rcases List.mem_cons.mp hz with hzy | hzys
      · subst hzy
        exact Bool.eq_false_iff.mpr h
      · exact htr x y z (Bool.eq_false_iff.mpr h) (hy z hzys)

theorem stableSortBy_sorted {α : Type} (lt : α → α → Bool)
    (hasym : ∀ a b, lt a b = true → lt b a = false)
    (htr : ∀ a b c, lt b a = false → lt c b = false → lt c a = false)
    (l : List α) : SortedLt lt (stableSortBy lt l) := by
  induction l with
  | nil => simp [stableSortBy, SortedLt]
  | cons x xs ih => exact insSorted_sorted lt hasym htr x _ ih

theorem stableSortBy_eq_self {α : Type} (lt : α → α → Bool) (l : List α)
    (hl : SortedLt lt l) : stableSortBy lt l = l := by
  induction l with
  | nil => rfl
  | cons x xs ih =>
    rcases List.pairwise_cons.mp hl with ⟨hx, hxs⟩
    rw [stableSortBy, ih hxs]
    cases xs with
    | nil => rfl
    | cons y ys =>
      rw [insSorted, if_neg (by simp [hx y (by simp)])]

theorem sortB_perm (l : List BlockedItem) : (sortB l).Perm l := stableSortBy_perm cmpB l

theorem sortB_length (l : List BlockedItem) : (sortB l).length = l.length :=
  (sortB_perm l).length_eq

theorem sortB_ne_nil (l : List BlockedItem) (h : l ≠ []) : sortB l ≠ [] := by
  intro hc
  have := sortB_length l
  rw [hc] at this
  exact h (List.length_eq_zero.mp this.symm)

theorem cmpB_eq_true_iff (a b : BlockedItem) :
    cmpB a b = true ↔
      (a.remaining_io < b.remaining_io ∨
        (a.remaining_io = b.remaining_io ∧ a.order < b.order)) := by
  unfold cmpB
  by_cases he : a.remaining_io = b.remaining_io
  · rw [if_pos he]
    simp [he]
  · rw [if_neg he]
    simp only [decide_eq_true_eq]
    constructor
    · intro h1
      exact Or.inl h1
    · rintro (h1 | ⟨h1, -⟩)
      · exact h1
      · exact absurd h1 he

theorem cmpB_eq_false_iff (a b : BlockedItem) :
    cmpB a b = false ↔
      (b.remaining_io < a.remaining_io ∨
        (a.remaining_io = b.remaining_io ∧ b.order ≤ a.order)) := by
  rw [← Bool.not_eq_true, cmpB_eq_true_iff]
  constructor
  · intro h
    omega
  · intro h
    omega

theorem cmpB_asym (a b : BlockedItem) (h : cmpB a b = true) : cmpB b a = false := by
  rw [cmpB_eq_true_iff] at h
  rw [cmpB_eq_false_iff]
  omega

theorem cmpB_le_trans (a b c : BlockedItem) (h1 : cmpB b a = false) (h2 : cmpB c b = false) :
    cmpB c a = false := by
  rw [cmpB_eq_false_iff] at h1 h2 ⊢
  omega

theorem sortB_sorted (l : List BlockedItem) : SortedLt cmpB (sortB l) :=
  stableSortBy_sorted cmpB cmpB_asym cmpB_le_trans l

theorem sortB_idem (l : List BlockedItem) : sortB (sortB l) = sortB l :=
  stableSortBy_eq_self cmpB (sortB l) (sortB_sorted l)

theorem filter_map_cons_len {α β : Type} (f : α → β) (p : β → Bool) (x : α) (l : List α)
    (hx : p (f x) = false) :
    (((x :: l).map f).filter p).length ≤ l.length := by
  rw [List.map_cons, List.filter_cons, hx]
  simpa using List.length_filter_le p (l.map f)

/-- Each `abIter` either strictly shrinks the blocked deque or zeroes the
remaining advance amount: the termination argument for `advance_blocked`. -/
theorem abIter_dec (s : Sim) (t : Int) (ht : 0 < t) (hb : s.blocked ≠ []) :
    (abIter s t).1.blocked.length < s.blocked.length ∨
      ((abIter s t).1.blocked.length ≤ s.blocked.length ∧ (abIter s t).2.toNat < t.toNat) := by
  obtain ⟨bi, rest, hs⟩ : ∃ bi rest, sortB s.blocked = bi :: rest := by
    cases h : sortB s.blocked with
    | nil => exact absurd h (sortB_ne_nil _ hb)
    | cons a as => exact ⟨a, as, rfl⟩
  have hlen : rest.length + 1 = s.blocked.length := by
    have := sortB_length s.blocked
    rw [hs] at this
    simpa using this
  by_cases hle : bi.remaining_io ≤ t
  · -- the earliest entry reaches zero and is removed: blocked shrinks
    left
    have hstep : min (((bi :: rest).headD default).remaining_io) t = bi.remaining_io := by
      simp [min_eq_left hle]
    simp only [abIter, hs, hstep]
    have hhead : (fun x : BlockedItem => decide (¬ x.remaining_io = 0))
        ({bi with remaining_io := bi.remaining_io - min bi.remaining_io bi.remaining_io}) = false := by
      simp
    have := filter_map_cons_len
      (fun x : BlockedItem => {x with remaining_io := x.remaining_io - min bi.remaining_io x.remaining_io})
      (fun x : BlockedItem => decide (¬ x.remaining_io = 0)) bi rest hhead
    omega
  · -- the whole advance amount is consumed: t drops to zero
    right
    push_neg at hle
    have hstep : min (((bi :: rest).headD default).remaining_io) t = t := by
      simp [min_eq_right hle.le]
    constructor
    · simp only [abIter, hs, hstep]
      have := List.length_filter_le (fun x : BlockedItem => decide (¬ x.remaining_io = 0))
        ((bi :: rest).map (fun x : BlockedItem =>
          {x with remaining_io := x.remaining_io - min t x.remaining_io}))
      simp only [List.length_map, List.length_cons] at this
      omega
    · simp only [abIter, hs, hstep]
      omega

theorem stepOf_pos (blocked : List BlockedItem) (remaining : Int) (h : 0 < remaining) :
    1 ≤ stepOf blocked remaining ∧ stepOf blocked remaining ≤ remaining := by
  unfold stepOf
  split
  · omega
  · rename_i bi rest _
    by_cases hb : 0 < bi.remaining_io
    · rw [if_pos hb]
      exact ⟨le_min (by omega) hb, min_le_left _ _⟩
    · rw [if_neg hb]
      omega

theorem advanceBlockedF_sound (fuel : Nat) (s : Sim) (t : Int) (r : Sim)
    (h : advanceBlockedF fuel s t = some r) : advanceBlocked s t = r := by
  induction fuel generalizing s t with
  | zero => exact absurd h (by simp [advanceBlockedF])
  | succ fuel ih =>
    rw [advanceBlocked]
    by_cases hc : 0 < t ∧ s.blocked ≠ []
    · rw [dif_pos hc]
      rw [advanceBlockedF, if_pos hc] at h
      exact ih _ _ h
    · rw [dif_neg hc]
      rw [advanceBlockedF, if_neg hc] at h
      exact Option.some.inj h

theorem subStepLoopF_sound (fuel : Nat) (s : Sim) (pid : Nat) (remaining : Int) (r : Sim)
    (h : subStepLoopF fuel s pid remaining = some r) : subStepLoop s pid remaining = r := by
  induction fuel generalizing s remaining with
  | zero => exact absurd h (by simp [subStepLoopF])
  | succ fuel ih =>
    rw [subStepLoop]
    by_cases hc : 0 < remaining
    · rw [dif_pos hc]
      show subStepLoop (advanceBlocked (subStepState s pid (stepOf s.blocked remaining))
          (stepOf s.blocked remaining)) pid (remaining - stepOf s.blocked remaining) = r
      simp only [subStepLoopF, if_pos hc] at h
      rcases hab : advanceBlockedF (fuel + 1)
          (subStepState s pid (stepOf s.blocked remaining)) (stepOf s.blocked remaining)
        with _ | s3
      · rw [hab] at h
        exact absurd h (by simp)
      · rw [hab] at h
        rw [advanceBlockedF_sound _ _ _ _ hab]
        exact ih _ _ h
    · rw [dif_neg hc]
      simp only [subStepLoopF, if_neg hc] at h
      exact Option.some.inj h

theorem runStepF_sound (fuel : Nat) (s : Sim) (o : Option Sim)
    (h : runStepF fuel s = some o) : runStep s = o := by
  obtain ⟨st, q, te, rd, bl, pr, cp, oc, ev⟩ := s
  cases rd with
  | cons pid rest =>
    simp only [runStepF] at h
    simp only [runStep]
    rcases hss : subStepLoopF fuel ⟨st, q, te, rest, bl, pr, cp, oc, ev⟩ pid
        (segOf ⟨st, q, te, rest, bl, pr, cp, oc, ev⟩ pid) with _ | s1
    · rw [hss] at h
      exact absurd h (by simp)
    · rw [hss] at h
      rw [subStepLoopF_sound _ _ _ _ _ hss]
      exact Option.some.inj h
  | nil =>
    cases bl with
    | nil =>
      simp only [runStepF] at h
      simp only [runStep]
      exact Option.some.inj h
    | cons bi bs =>
      simp only [runStepF] at h
      simp only [runStep]
      rcases hab : advanceBlockedF fuel ⟨st, q, te, [], sortB (bi :: bs), pr, cp, oc, ev⟩
          (((sortB (bi :: bs)).headD default).remaining_io) with _ | s2
      · rw [hab] at h
        exact absurd h (by simp)
      · rw [hab] at h
        rw [advanceBlockedF_sound _ _ _ _ hab]
        exact Option.some.inj h

theorem runFuelF_sound (n fuel : Nat) (s r : Sim)
    (h : runFuelF n fuel s = some r) : runFuel n s = r := by
  induction n generalizing s with
  | zero =>
    rw [runFuelF] at h
    exact Option.some.inj h
  | succ n ih =>
    rw [runFuel]
    rcases hrs : runStepF fuel s with _ | o
    · rw [runFuelF, hrs] at h
      exact absurd h (by simp)
    · rw [runStepF_sound _ _ _ hrs]
      rcases o with _ | s'
      · rw [runFuelF, hrs] at h
        exact Option.some.inj h
      · rw [runFuelF, hrs] at h
        exact ih _ h

/-- Evaluation bridge: whenever the fuelled run converges, the faithful run
equals its result. -/
theorem runFuel_eq_of_isSome (n fuel : Nat) (s : Sim)
    (h : (runFuelF n fuel s).isSome = true) :
    runFuel n s = (runFuelF n fuel s).getD default := by
  rcases hr : runFuelF n fuel s with _ | r
  · rw [hr] at h
    exact absurd h (by simp)
  · rw [Option.getD_some]
    exact runFuelF_sound n fuel s r hr

theorem updAt_length (ps : List Proc) (i : Nat) (f : Proc → Proc) :
    (updAt ps i f).length = ps.length := by
  induction ps generalizing i with
  | nil => rfl
  | cons p ps ih =>
    cases i with
    | zero => rfl
    | succ n => simp [updAt, ih]

theorem updAt_eq_of_ge (ps : List Proc) (i : Nat) (f : Proc → Proc) (h : ps.length ≤ i) :
    updAt ps i f = ps := by
  induction ps generalizing i with
  | nil => rfl
  | cons p ps ih =>
    cases i with
    | zero => simp at h
    | succ n =>
      simp only [updAt, List.cons.injEq, true_and]
      exact ih n (by simpa using h)

theorem getD_updAt_ne (ps : List Proc) (i j : Nat) (f : Proc → Proc) (h : j ≠ i) :
    (updAt ps i f).getD j default = ps.getD j default := by
  induction ps generalizing i j with
  | nil => rfl
  | cons p ps ih =>
    cases i with
    | zero =>
      cases j with
      | zero => exact absurd rfl h
      | succ m => simp [updAt]
    | succ n =>
      cases j with
      | zero => simp [updAt]
      | succ m =>
        simp only [updAt, List.getD_cons_succ]
        exact ih n m (by omega)

theorem getD_updAt_self (ps : List Proc) (i : Nat) (f : Proc → Proc) (h : i < ps.length) :
    (updAt ps i f).getD i default = f (ps.getD i default) := by
  induction ps generalizing i with
  | nil => simp at h
  | cons p ps ih =>
    cases i with
    | zero => simp [updAt]
    | succ n =>
      simp only [updAt, List.getD_cons_succ]
      exact ih n (by simpa using h)

theorem getD_updAt_proj {γ : Type} (h : Proc → γ) (ps : List Proc) (i j : Nat)
    (f : Proc → Proc) (hp : ∀ p, h (f p) = h p) :
    h ((updAt ps i f).getD j default) = h (ps.getD j default) := by
  by_cases hij : j = i
  · subst hij
    by_cases hlt : j < ps.length
    · rw [getD_updAt_self ps j f hlt, hp]
    · rw [updAt_eq_of_ge ps j f (by omega)]
  · rw [getD_updAt_ne ps i j f hij]

theorem foldl_updAt_length {β : Type} (key : β → Nat) (g : β → Proc → Proc)
    (L : List β) (ps : List Proc) :
    (L.foldl (fun ps b => updAt ps (key b) (g b)) ps).length = ps.length := by
  induction L generalizing ps with
  | nil => rfl
  | cons b L ih => simp only [List.foldl_cons]; rw [ih, updAt_length]

theorem foldl_updAt_not_mem {β : Type} (key : β → Nat) (g : β → Proc → Proc)
    (L : List β) (ps : List Proc) (j : Nat) (h : ∀ b ∈ L, key b ≠ j) :
    (L.foldl (fun ps b => updAt ps (key b) (g b)) ps).getD j default = ps.getD j default := by
  induction L generalizing ps with
  | nil => rfl
  | cons b L ih =>
    simp only [List.foldl_cons]
    rw [ih _ (fun b hb => h b (List.mem_cons_of_mem _ hb)),
      getD_updAt_ne _ _ _ _ (fun hc => h b (List.mem_cons_self _ _) hc.symm)]

theorem foldl_updAt_proj {β γ : Type} (key : β → Nat) (g : β → Proc → Proc) (h : Proc → γ)
    (hp : ∀ b p, h (g b p) = h p) (L : List β) (ps : List Proc) (j : Nat) :
    h ((L.foldl (fun ps b => updAt ps (key b) (g b)) ps).getD j default)
      = h (ps.getD j default) := by
  induction L generalizing ps with
  | nil => rfl
  | cons b L ih =>
    simp only [List.foldl_cons]
    rw [ih, getD_updAt_proj h ps (key b) j (g b) (hp b)]

theorem foldl_updAt_single {β : Type} (key : β → Nat) (g : β → Proc → Proc)
    (L : List β) (ps : List Proc) (j : Nat) (b0 : β) (hj : j < ps.length)
    (h : L.filter (fun b => key b = j) = [b0]) :
    (L.foldl (fun ps b => updAt ps (key b) (g b)) ps).getD j default
      = g b0 (ps.getD j default) := by
  induction L generalizing ps with
  | nil => simp at h
  | cons b L ih =>
    by_cases hb : key b = j
    · rw [List.filter_cons_of_pos (by simpa using hb)] at h
      rcases List.cons.injEq .. ▸ h with ⟨hb0, hrest⟩
      subst hb0
      simp only [List.foldl_cons]
      rw [foldl_updAt_not_mem key g L _ j
        (fun b' hb' => by
          intro hc
          have := List.filter_eq_nil_iff.mp hrest b' hb'
          simp [hc] at this),
        hb, getD_updAt_self ps j _ hj]
    · rw [List.filter_cons_of_neg (by simpa using hb)] at h
      simp only [List.foldl_cons]
      rw [ih (updAt ps (key b) (g b)) (by rwa [updAt_length]) h,
        getD_updAt_ne ps (key b) j (g b) (fun hc => hb hc.symm)]

theorem sumEven_sumOdd_cons (l : List Int) :
    ∀ a : Int, sumEven (a :: l) = a + sumOdd l ∧ sumOdd (a :: l) = sumEven l := by
  induction l with
  | nil => intro a; simp [sumEven, sumOdd]
  | cons b xs ih =>
    intro a
    constructor
    · show a + sumEven xs = a + sumOdd (b :: xs)
      rw [(ih b).2]
    · show b + sumOdd xs = sumEven (b :: xs)
      rw [(ih b).1]

theorem sumEven_cons (a : Int) (l : List Int) : sumEven (a :: l) = a + sumOdd l :=
  (sumEven_sumOdd_cons l a).1

theorem sumOdd_cons (a : Int) (l : List Int) : sumOdd (a :: l) = sumEven l :=
  (sumEven_sumOdd_cons l a).2

theorem sum_tail (l : List Int) : l.tail.sum = l.sum - l.headD 0 := by
  cases l with
  | nil => simp
  | cons x xs => simp [List.sum_cons]

theorem decFront_zero (l : List Int) : decFront l 0 = l := by
  cases l <;> simp [decFront]

theorem decFront_decFront (l : List Int) (a b : Int) :
    decFront (decFront l a) b = decFront l (a + b) := by
  cases l with
  | nil => rfl
  | cons x xs => simp [decFront]; ring

theorem decFront_length (l : List Int) (d : Int) : (decFront l d).length = l.length := by
  cases l <;> simp [decFront]

theorem decFront_tail (l : List Int) (d : Int) : (decFront l d).tail = l.tail := by
  cases l <;> simp [decFront]

theorem decFront_ne_nil (l : List Int) (d : Int) (h : l ≠ []) : decFront l d ≠ [] := by
  cases l with
  | nil => exact absurd rfl h
  | cons x xs => simp [decFront]

theorem decFront_headD (l : List Int) (d : Int) (h : l ≠ []) :
    (decFront l d).headD 0 = l.headD 0 - d := by
  cases l with
  | nil => exact absurd rfl h
  | cons x xs => simp [decFront]

theorem decFront_sum (l : List Int) (d : Int) (h : l ≠ []) :
    (decFront l d).sum = l.sum - d := by
  cases l with
  | nil => exact absurd rfl h
  | cons x xs => simp [decFront, List.sum_cons]; ring

theorem sumEven_decFront (l : List Int) (d : Int) (h : l ≠ []) :
    sumEven (decFront l d) = sumEven l - d := by
  cases l with
  | nil => exact absurd rfl h
  | cons x xs => simp [decFront, sumEven_cons]; ring

theorem sumOdd_decFront (l : List Int) (d : Int) :
    sumOdd (decFront l d) = sumOdd l := by
  cases l with
  | nil => rfl
  | cons x xs => simp [decFront, sumOdd_cons]

theorem MiP_updAt (ps : List Proc) (i : Nat) (f : Proc → Proc) (h : i < ps.length) :
    MiP (updAt ps i f)
      = MiP ps + ((f (ps.getD i default)).bursts.sum - (ps.getD i default).bursts.sum) := by
  induction ps generalizing i with
  | nil => simp at h
  | cons p ps ih =>
    cases i with
    | zero => simp [updAt, MiP]; ring
    | succ n =>
      have := ih n (by simpa using h)
      simp only [updAt, MiP, List.map_cons, List.sum_cons, List.getD_cons_succ] at this ⊢
      omega

theorem MiP_updAt_proj (ps : List Proc) (i : Nat) (f : Proc → Proc)
    (hp : ∀ p, (f p).bursts = p.bursts) : MiP (updAt ps i f) = MiP ps := by
  by_cases h : i < ps.length
  · rw [MiP_updAt ps i f h, hp]
    ring
  · rw [updAt_eq_of_ge ps i f (by omega)]

theorem MiP_foldl_proj {β : Type} (key : β → Nat) (g : β → Proc → Proc)
    (hp : ∀ b p, (g b p).bursts = p.bursts) (L : List β) (ps : List Proc) :
    MiP (L.foldl (fun ps b => updAt ps (key b) (g b)) ps) = MiP ps := by
  induction L generalizing ps with
  | nil => rfl
  | cons b L ih =>
    simp only [List.foldl_cons]
    rw [ih, MiP_updAt_proj _ _ _ (hp b)]

theorem countB_perm {l1 l2 : List BlockedItem} (h : l1.Perm l2) (j : Nat) :
    countB l1 j = countB l2 j := h.countP_eq _

theorem countB_pos_iff (bl : List BlockedItem) (j : Nat) :
    0 < countB bl j ↔ ∃ bi ∈ bl, bi.pid = j := by
  unfold countB
  rw [List.countP_pos_iff]
  simp

theorem countC_pos_iff (cl : List (Int × Nat)) (j : Nat) :
    0 < countC cl j ↔ ∃ e ∈ cl, e.2 = j := by
  unfold countC
  rw [List.countP_pos_iff]
  simp

theorem count_pos_iff_mem (l : List Nat) (j : Nat) : 0 < l.count j ↔ j ∈ l :=
  List.count_pos_iff

theorem countB_eq_length_filter (bl : List BlockedItem) (j : Nat) :
    countB bl j = (bl.filter (fun bi => bi.pid = j)).length :=
  List.countP_eq_length_filter _ _

theorem countB_map_pid (f : BlockedItem → BlockedItem)
    (hf : ∀ bi, (f bi).pid = bi.pid) (bl : List BlockedItem) (j : Nat) :
    countB (bl.map f) j = countB bl j := by
  unfold countB
  rw [List.countP_map]
  refine List.countP_congr ?_
  intro bi _
  simp [Function.comp, hf]

theorem count_map_key {β : Type} (key : β → Nat) (L : List β) (j : Nat) :
    (L.map key).count j = L.countP (fun b => key b = j) := by
  induction L with
  | nil => rfl
  | cons b L ih =>
    by_cases hb : key b = j
    · simp [List.count_cons, ih, hb]
    · simp [List.count_cons, ih, hb]

theorem countP_filter_split {β : Type} (r q : β → Bool) (l : List β) :
    (l.filter q).countP r + (l.filter (fun b => !q b)).countP r = l.countP r := by
  induction l with
  | nil => rfl
  | cons b L ih =>
    by_cases hq : q b
    · by_cases hr : r b <;> simp [hq, hr, List.countP_cons] <;> omega
    · by_cases hr : r b <;>
        simp [List.filter_cons, hq, hr, List.countP_cons] <;> omega

theorem countP_eq_one_filter {β : Type} (p : β → Bool) (l : List β) (h : l.countP p = 1) :
    ∃ b, l.filter p = [b] ∧ p b = true := by
  rw [List.countP_eq_length_filter] at h
  rcases hl : l.filter p with _ | ⟨b, rest⟩
  · rw [hl] at h
    simp at h
  · rcases rest with _ | ⟨c, rest2⟩
    · exact ⟨b, rfl, by
        have : b ∈ l.filter p := by rw [hl]; exact List.mem_cons_self _ _
        exact (List.mem_filter.mp this).2⟩
    · rw [hl] at h
      simp at h

/-- C1: FCFS on P0 `[2, 3, 2]`, P1 `[5]`.  After the first dispatch P0 has
run its CPU burst of 2 (event "entered I/O" at clock 2) and sits in the
blocked set with 3 units of I/O left (so its I/O completes at clock
2 + 3 = 5).  During P1's burst of 5 that I/O completes and P0 is put back
on the ready queue — after the second dispatch P1 has already completed at
clock 7 with no intervening event (no preemption) and P0 is the sole ready
process with its 3 units of I/O credited.  P0 then runs its last CPU burst
of 2 and completes at clock 9; the completion records are P1 at 7 then P0
at 9, and the simulation is terminal after these four dispatch-loop
iterations. -/
theorem C1_fcfs_scenarioD_trace :
    (runFuel 1 scenD).blocked = [⟨0, 3, 0⟩] ∧
    (runFuel 1 scenD).time_elapsed = 2 ∧
    (runFuel 2 scenD).ready = [0] ∧
    (runFuel 2 scenD).time_elapsed = 7 ∧
    (getP (runFuel 2 scenD) 0).executed_io = 3 ∧
    (runFuel 4 scenD).events =
      [⟨0, 2, 0, 2, Reason.enterIo⟩,
       ⟨1, 5, 0, 7, Reason.completed⟩,
       ⟨0, 4, 3, 9, Reason.completed⟩] ∧
    (runFuel 4 scenD).completed = [(7, 1), (9, 0)] ∧
    runStep (runFuel 4 scenD) = none := by
  refine ⟨?_, ?_, ?_, ?_, ?_, ?_, ?_, ?_⟩
  · rw [runFuel_eq_of_isSome 1 100 scenD (by rfl)]
    rfl
  · rw [runFuel_eq_of_isSome 1 100 scenD (by rfl)]
    rfl
  · rw [runFuel_eq_of_isSome 2 100 scenD (by rfl)]
    rfl
  · rw [runFuel_eq_of_isSome 2 100 scenD (by rfl)]
    rfl
  · rw [runFuel_eq_of_isSome 2 100 scenD (by rfl)]
    rfl
  · rw [runFuel_eq_of_isSome 4 100 scenD (by rfl)]
    rfl
  · rw [runFuel_eq_of_isSome 4 100 scenD (by rfl)]
    rfl
  · rw [runFuel_eq_of_isSome 4 100 scenD (by rfl)]
    exact runStepF_sound 100 _ _ (by rfl)

/-- C2: round-robin with quantum 2 on P0 `[4]`, P1 `[4]`.  The dispatch
order is P0 for 2 (quantum expired at clock 2), P1 for 2 (quantum expired
at clock 4), P0 for 2 (completes at clock 6), P1 for 2 (completes at clock
8); the completion records are P0 at 6 then P1 at 8, and the simulation is
terminal after these four iterations. -/
theorem C2_rr_scenarioC_trace :
    (runFuel 4 scenC).events =
      [⟨0, 2, 0, 2, Reason.quantumExpired⟩,
       ⟨1, 2, 0, 4, Reason.quantumExpired⟩,
       ⟨0, 4, 0, 6, Reason.completed⟩,
       ⟨1, 4, 0, 8, Reason.completed⟩] ∧
    (runFuel 4 scenC).completed = [(6, 0), (8, 1)] ∧
    runStep (runFuel 4 scenC) = none := by
  refine ⟨?_, ?_, ?_⟩
  · rw [runFuel_eq_of_isSome 4 100 scenC (by rfl)]
    rfl
  · rw [runFuel_eq_of_isSome 4 100 scenC (by rfl)]
    rfl
  · rw [runFuel_eq_of_isSome 4 100 scenC (by rfl)]
    exact runStepF_sound 100 _ _ (by rfl)


/-! ### Stage lemmas for one `advance_blocked` iteration -/

theorem abIter_eq (s : Sim) (t : Int) :
    abIter s t =
      (⟨s.strategy, s.quantum, s.time_elapsed,
        s.ready ++ (abFin s t).map (fun bi => bi.pid), abKeep s t, abProcs2 s t,
        s.completed, s.order_counter, s.events⟩, t - abStep s t) := rfl

theorem abDecd_countB (s : Sim) (t : Int) (j : Nat) :
    countB (abDecd s t) j = countB s.blocked j := by
  unfold abDecd
  rw [countB_map_pid (fun bi =>
      {bi with remaining_io := bi.remaining_io - min (abStep s t) bi.remaining_io})
    (fun bi => rfl), countB_perm (sortB_perm s.blocked)]

theorem abFin_keep_count (s : Sim) (t : Int) (j : Nat) :
    countB (abFin s t) j + countB (abKeep s t) j = countB s.blocked j := by
  rw [← abDecd_countB s t j]
  unfold abFin abKeep countB
  have := countP_filter_split (fun bi : BlockedItem => decide (bi.pid = j))
    (fun bi : BlockedItem => decide (bi.remaining_io = 0)) (abDecd s t)
  simpa [decide_not] using this

theorem abDecd_mem (s : Sim) (t : Int) {x : BlockedItem} (h : x ∈ abDecd s t) :
    ∃ bi ∈ s.blocked,
      x = {bi with remaining_io := bi.remaining_io - min (abStep s t) bi.remaining_io} := by
  unfold abDecd at h
  rcases List.mem_map.mp h with ⟨bi, hbi, hx⟩
  exact ⟨bi, (sortB_perm s.blocked).subset hbi, hx.symm⟩

theorem abFin_mem (s : Sim) (t : Int) {x : BlockedItem} (h : x ∈ abFin s t) :
    x ∈ abDecd s t := List.mem_of_mem_filter h

theorem abKeep_mem (s : Sim) (t : Int) {x : BlockedItem} (h : x ∈ abKeep s t) :
    x ∈ abDecd s t := List.mem_of_mem_filter h

theorem abProcs1_length (s : Sim) (t : Int) : (abProcs1 s t).length = s.procs.length := by
  unfold abProcs1
  exact @foldl_updAt_length BlockedItem (fun bi => bi.pid)
    (fun bi p => {p with executed_io := p.executed_io + min (abStep s t) bi.remaining_io})
    (sortB s.blocked) s.procs

theorem abProcs2_length (s : Sim) (t : Int) : (abProcs2 s t).length = s.procs.length := by
  unfold abProcs2
  rw [@foldl_updAt_length BlockedItem (fun bi => bi.pid)
    (fun _ p => {p with bursts := p.bursts.tail}) (abFin s t) (abProcs1 s t)]
  exact abProcs1_length s t

theorem abProcs1_proj {γ : Type} (h : Proc → γ)
    (hp : ∀ x p, h ({p with executed_io := p.executed_io + x} : Proc) = h p)
    (s : Sim) (t : Int) (j : Nat) :
    h ((abProcs1 s t).getD j default) = h (s.procs.getD j default) := by
  unfold abProcs1
  exact @foldl_updAt_proj BlockedItem γ (fun bi => bi.pid)
    (fun bi p => {p with executed_io := p.executed_io + min (abStep s t) bi.remaining_io})
    h (fun bi p => hp _ p) (sortB s.blocked) s.procs j

theorem abProcs2_proj {γ : Type} (h : Proc → γ)
    (hp1 : ∀ x p, h ({p with executed_io := p.executed_io + x} : Proc) = h p)
    (hp2 : ∀ p, h ({p with bursts := p.bursts.tail} : Proc) = h p)
    (s : Sim) (t : Int) (j : Nat) :
    h ((abProcs2 s t).getD j default) = h (s.procs.getD j default) := by
  unfold abProcs2
  rw [@foldl_updAt_proj BlockedItem γ (fun bi => bi.pid)
    (fun _ p => {p with bursts := p.bursts.tail}) h (fun _ p => hp2 p) (abFin s t)
    (abProcs1 s t) j]
  exact abProcs1_proj h hp1 s t j

theorem abProcs1_bursts (s : Sim) (t : Int) (j : Nat) :
    ((abProcs1 s t).getD j default).bursts = (s.procs.getD j default).bursts :=
  abProcs1_proj (fun p => p.bursts) (fun _ _ => rfl) s t j

theorem abProcs2_totals (s : Sim) (t : Int) (j : Nat) :
    ((abProcs2 s t).getD j default).total_cpu = (s.procs.getD j default).total_cpu ∧
    ((abProcs2 s t).getD j default).total_io = (s.procs.getD j default).total_io ∧
    ((abProcs2 s t).getD j default).pid = (s.procs.getD j default).pid ∧
    ((abProcs2 s t).getD j default).completion_time
      = (s.procs.getD j default).completion_time := by
  have := abProcs2_proj (fun p => (p.total_cpu, p.total_io, p.pid, p.completion_time))
    (fun _ _ => rfl) (fun _ => rfl) s t j
  simp only [Prod.mk.injEq] at this
  exact ⟨this.1, this.2.1, this.2.2.1, this.2.2.2⟩

theorem abProcs1_getD_zero (s : Sim) (t : Int) (j : Nat) (h : countB s.blocked j = 0) :
    (abProcs1 s t).getD j default = s.procs.getD j default := by
  unfold abProcs1
  refine @foldl_updAt_not_mem BlockedItem (fun bi => bi.pid)
    (fun bi p => {p with executed_io := p.executed_io + min (abStep s t) bi.remaining_io})
    (sortB s.blocked) s.procs j ?_
  intro b hb hc
  have hp : 0 < countB s.blocked j := by
    rw [← countB_perm (sortB_perm s.blocked)]
    exact (countB_pos_iff _ _).mpr ⟨b, hb, hc⟩
  omega

theorem abProcs2_getD_zero (s : Sim) (t : Int) (j : Nat) (hfin : countB (abFin s t) j = 0) :
    (abProcs2 s t).getD j default = (abProcs1 s t).getD j default := by
  unfold abProcs2
  refine @foldl_updAt_not_mem BlockedItem (fun bi => bi.pid)
    (fun _ p => {p with bursts := p.bursts.tail}) (abFin s t) (abProcs1 s t) j ?_
  intro b hb hc
  have hp : 0 < countB (abFin s t) j := (countB_pos_iff _ _).mpr ⟨b, hb, hc⟩
  omega

theorem abProcs1_getD_one (s : Sim) (t : Int) (j : Nat) (bi : BlockedItem)
    (hj : j < s.procs.length)
    (h : (sortB s.blocked).filter (fun b => b.pid = j) = [bi]) :
    (abProcs1 s t).getD j default =
      {s.procs.getD j default with executed_io :=
        (s.procs.getD j default).executed_io + min (abStep s t) bi.remaining_io} := by
  unfold abProcs1
  exact @foldl_updAt_single BlockedItem (fun b => b.pid)
    (fun b p => {p with executed_io := p.executed_io + min (abStep s t) b.remaining_io})
    (sortB s.blocked) s.procs j bi hj h

theorem abProcs2_getD_one (s : Sim) (t : Int) (j : Nat) (bi : BlockedItem)
    (hj : j < s.procs.length)
    (h : (abFin s t).filter (fun b => b.pid = j) = [bi]) :
    (abProcs2 s t).getD j default =
      {(abProcs1 s t).getD j default with
        bursts := ((abProcs1 s t).getD j default).bursts.tail} := by
  unfold abProcs2
  exact @foldl_updAt_single BlockedItem (fun b => b.pid)
    (fun _ p => {p with bursts := p.bursts.tail})
    (abFin s t) (abProcs1 s t) j bi (by rwa [abProcs1_length]) h

theorem abDecd_filter (s : Sim) (t : Int) (j : Nat) (bi : BlockedItem)
    (h : (sortB s.blocked).filter (fun b => b.pid = j) = [bi]) :
    (abDecd s t).filter (fun b => b.pid = j)
      = [{bi with remaining_io := bi.remaining_io - min (abStep s t) bi.remaining_io}] := by
  unfold abDecd
  rw [List.filter_map]
  have hcongr : (sortB s.blocked).filter
      ((fun b : BlockedItem => decide (b.pid = j)) ∘ (fun bi =>
        {bi with remaining_io := bi.remaining_io - min (abStep s t) bi.remaining_io}))
      = (sortB s.blocked).filter (fun b => b.pid = j) := by
    refine List.filter_congr ?_
    intro x _
    simp [Function.comp]
  rw [hcongr, h, List.map_cons, List.map_nil]

theorem abFin_keep_filter (s : Sim) (t : Int) (j : Nat) (bi : BlockedItem)
    (h : (sortB s.blocked).filter (fun b => b.pid = j) = [bi]) :
    ((bi.remaining_io - min (abStep s t) bi.remaining_io = 0 ∧
       (abFin s t).filter (fun b => b.pid = j)
         = [{bi with remaining_io := bi.remaining_io - min (abStep s t) bi.remaining_io}] ∧
       (abKeep s t).filter (fun b => b.pid = j) = []) ∨
     (¬ bi.remaining_io - min (abStep s t) bi.remaining_io = 0 ∧
       (abFin s t).filter (fun b => b.pid = j) = [] ∧
       (abKeep s t).filter (fun b => b.pid = j)
         = [{bi with remaining_io := bi.remaining_io - min (abStep s t) bi.remaining_io}])) := by
  have hfin : (abFin s t).filter (fun b => b.pid = j)
      = ((abDecd s t).filter (fun b => b.pid = j)).filter (fun b => b.remaining_io = 0) := by
    unfold abFin
    rw [List.filter_filter, List.filter_filter]
    refine List.filter_congr ?_
    intro x _
    simp [Bool.and_comm]
  have hkeep : (abKeep s t).filter (fun b => b.pid = j)
      = ((abDecd s t).filter (fun b => b.pid = j)).filter (fun b => ¬ b.remaining_io = 0) := by
    unfold abKeep
    rw [List.filter_filter, List.filter_filter]
    refine List.filter_congr ?_
    intro x _
    simp [Bool.and_comm]
  rw [hfin, hkeep, abDecd_filter s t j bi h]
  by_cases hz : bi.remaining_io - min (abStep s t) bi.remaining_io = 0
  · left
    refine ⟨hz, ?_, ?_⟩
    · rw [List.filter_cons_of_pos (by simpa using hz), List.filter_nil]
    · rw [List.filter_cons_of_neg (by simpa using hz), List.filter_nil]
  · right
    refine ⟨hz, ?_, ?_⟩
    · rw [List.filter_cons_of_neg (by simpa using hz), List.filter_nil]
    · rw [List.filter_cons_of_pos (by simpa using hz), List.filter_nil]


/-! ### Derived facts from the invariant -/

theorem headD_pos (l : List Int) (hne : l ≠ []) (hpos : ∀ b ∈ l, 1 ≤ b) :
    1 ≤ l.headD 0 := by
  cases l with
  | nil => exact absurd rfl hne
  | cons x xs => exact hpos x (List.mem_cons_self _ _)

theorem mem_getD_of_mem (ps : List Proc) {p : Proc} (h : p ∈ ps) :
    ∃ j, j < ps.length ∧ ps.getD j default = p := by
  induction ps with
  | nil => simp at h
  | cons q qs ih =>
    rcases List.mem_cons.mp h with hq | hqs
    · exact ⟨0, by simp, hq.symm⟩
    · rcases ih hqs with ⟨j, hj, hget⟩
      exact ⟨j + 1, by simpa using hj, by simpa using hget⟩

theorem InvG_countB_le_one (s : Sim) (r? : Option (Nat × Int)) (inv : InvG s r?)
    (j : Nat) (hj : j < s.procs.length) : countB s.blocked j ≤ 1 := by
  have := inv.uniq j hj
  omega

theorem InvG_blocked_singleton (s : Sim) (r? : Option (Nat × Int)) (inv : InvG s r?)
    (j : Nat) (hj : j < s.procs.length) (hpos : 0 < countB s.blocked j) :
    ∃ bi, (sortB s.blocked).filter (fun b => b.pid = j) = [bi] ∧ bi ∈ s.blocked ∧ bi.pid = j := by
  have h1 : countB s.blocked j = 1 :=
    le_antisymm (InvG_countB_le_one s r? inv j hj) hpos
  have h2 : (sortB s.blocked).countP (fun b => decide (b.pid = j)) = 1 := by
    have h3 := countB_perm (sortB_perm s.blocked) j
    unfold countB at h3 h1
    omega
  rcases countP_eq_one_filter _ _ h2 with ⟨bi, hfil, hbi⟩
  have hmem : bi ∈ sortB s.blocked := by
    have : bi ∈ (sortB s.blocked).filter (fun b => decide (b.pid = j)) := by
      rw [hfil]
      exact List.mem_cons_self _ _
    exact List.mem_of_mem_filter this
  exact ⟨bi, hfil, (sortB_perm s.blocked).subset hmem, of_decide_eq_true hbi⟩

theorem InvG_class (s : Sim) (r? : Option (Nat × Int)) (inv : InvG s r?)
    (j : Nat) (hj : j < s.procs.length) :
    ProcReady (getP s j) ∨
    (∃ bi ∈ s.blocked, bi.pid = j ∧ ProcBlocked (getP s j) bi.remaining_io) ∨
    ProcDone (getP s j) ∨
    (∃ rem, r? = some (j, rem) ∧ ProcMid (getP s j) rem) := by
  have hu := inv.uniq j hj
  by_cases hr : 0 < s.ready.count j
  · exact Or.inl (inv.readyOk j ((count_pos_iff_mem _ _).mp hr))
  · by_cases hbk : 0 < countB s.blocked j
    · rcases (countB_pos_iff _ _).mp hbk with ⟨bi, hbi, hpid⟩
      exact Or.inr (Or.inl ⟨bi, hbi, hpid, hpid ▸ inv.blockedOk bi hbi⟩)
    · by_cases hcc : 0 < countC s.completed j
      · rcases (countC_pos_iff _ _).mp hcc with ⟨e, he, hpid⟩
        exact Or.inr (Or.inr (Or.inl (hpid ▸ inv.complOk e he)))
      · have hx : runExtra r? j = 1 := by omega
        rcases r? with _ | ⟨r, rem⟩
        · simp [runExtra] at hx
        · have hjr : j = r := by
            by_contra hne
            simp [runExtra, hne] at hx
          subst hjr
          exact Or.inr (Or.inr (Or.inr ⟨rem, rfl, (inv.runOk j rem rfl).1⟩))

theorem InvG_bursts_nonneg (s : Sim) (r? : Option (Nat × Int)) (inv : InvG s r?)
    (j : Nat) : ∀ b ∈ (s.procs.getD j default).bursts, 0 ≤ b := by
  by_cases hj : j < s.procs.length
  · intro b hb
    rcases InvG_class s r? inv j hj with hR | ⟨bi, _, _, hB⟩ | hD | ⟨rem, _, hM⟩
    · have := hR.pos b hb
      omega
    · have := hB.pos b hb
      omega
    · rw [show getP s j = s.procs.getD j default from rfl] at hD
      rw [hD.empty] at hb
      simp at hb
    · rcases hl : (getP s j).bursts with _ | ⟨b0, bs⟩
      · rw [show getP s j = s.procs.getD j default from rfl] at hl
        rw [hl] at hb
        simp at hb
      · have hhead : (getP s j).bursts.headD 0 = b0 := by rw [hl]; rfl
        have hb' : b ∈ (getP s j).bursts := hb
        rw [hl] at hb'
        rcases List.mem_cons.mp hb' with hb0 | hbs
        · subst hb0
          have := hM.hnn
          omega
        · have : b ∈ (getP s j).bursts.tail := by rw [hl]; exact hbs
          have := hM.tpos b this
          omega
  · intro b hb
    rw [List.getD_eq_default _ _ (by omega)] at hb
    simp [default] at hb

theorem MiP_nonneg_of (ps : List Proc) (h : ∀ p ∈ ps, ∀ b ∈ p.bursts, 0 ≤ b) :
    0 ≤ MiP ps := by
  induction ps with
  | nil => simp [MiP]
  | cons p ps ih =>
    have h1 : 0 ≤ p.bursts.sum :=
      List.sum_nonneg (fun b hb => h p (List.mem_cons_self _ _) b hb)
    have h2 : 0 ≤ MiP ps := ih (fun q hq => h q (List.mem_cons_of_mem _ hq))
    simp only [MiP, List.map_cons, List.sum_cons] at *
    omega

theorem InvG_MiP_nonneg (s : Sim) (r? : Option (Nat × Int)) (inv : InvG s r?) :
    0 ≤ MiP s.procs := by
  refine MiP_nonneg_of s.procs ?_
  intro p hp b hb
  rcases mem_getD_of_mem s.procs hp with ⟨j, _, hget⟩
  exact InvG_bursts_nonneg s r? inv j b (by rwa [hget])

/-! ### The measure under blocked-deque advances -/

theorem MiP_updAt_tail (ps : List Proc) (j : Nat) (hj : j < ps.length) :
    MiP (updAt ps j (fun p => {p with bursts := p.bursts.tail}))
      = MiP ps - (ps.getD j default).bursts.headD 0 := by
  rw [MiP_updAt ps j _ hj]
  have := sum_tail (ps.getD j default).bursts
  simp only []
  omega

theorem MiP_foldl_tail_le (L : List BlockedItem) (ps : List Proc)
    (h : ∀ bi ∈ L, ∀ b ∈ (ps.getD bi.pid default).bursts, 0 ≤ b) :
    MiP (L.foldl (fun ps bi => updAt ps bi.pid (fun p => {p with bursts := p.bursts.tail})) ps)
      ≤ MiP ps := by
  induction L generalizing ps with
  | nil => simp
  | cons bi L ih =>
    simp only [List.foldl_cons]
    have hstep : MiP (updAt ps bi.pid (fun p => {p with bursts := p.bursts.tail})) ≤ MiP ps := by
      by_cases hj : bi.pid < ps.length
      · rw [MiP_updAt_tail ps bi.pid hj]
        have hnn : 0 ≤ (ps.getD bi.pid default).bursts.headD 0 := by
          rcases hl : (ps.getD bi.pid default).bursts with _ | ⟨b0, bs⟩
          · simp
          · have := h bi (List.mem_cons_self _ _) b0 (by rw [hl]; exact List.mem_cons_self _ _)
            simpa using this
        omega
      · rw [updAt_eq_of_ge ps bi.pid _ (by omega)]
    refine le_trans (ih _ ?_) hstep
    intro bj hbj b hb
    by_cases he : bj.pid = bi.pid
    · rw [he] at hb
      by_cases hj : bi.pid < ps.length
      · rw [getD_updAt_self ps bi.pid _ hj] at hb
        simp only [] at hb
        exact h bi (List.mem_cons_self _ _) b (List.mem_of_mem_tail hb)
      · rw [updAt_eq_of_ge ps bi.pid _ (by omega)] at hb
        exact h bi (List.mem_cons_self _ _) b hb
    · rw [getD_updAt_ne ps bi.pid bj.pid _ he] at hb
      exact h bj (List.mem_cons_of_mem _ hbj) b hb


/-! ### The per-process effect of one `advance_blocked` iteration -/

theorem abIter_getD (s : Sim) (t : Int) (r? : Option (Nat × Int)) (inv : InvG s r?)
    (j : Nat) (hj : j < s.procs.length) :
    (countB s.blocked j = 0 ∧ (abProcs2 s t).getD j default = s.procs.getD j default ∧
      (abFin s t).filter (fun b => b.pid = j) = [] ∧
      (abKeep s t).filter (fun b => b.pid = j) = []) ∨
    (∃ bi ∈ s.blocked, bi.pid = j ∧ countB s.blocked j = 1 ∧
      ((bi.remaining_io - min (abStep s t) bi.remaining_io = 0 ∧
         (abProcs2 s t).getD j default =
           {s.procs.getD j default with
             executed_io := (s.procs.getD j default).executed_io + bi.remaining_io,
             bursts := (s.procs.getD j default).bursts.tail} ∧
         (abFin s t).filter (fun b => b.pid = j) = [{bi with remaining_io := 0}] ∧
         (abKeep s t).filter (fun b => b.pid = j) = []) ∨
       (¬ bi.remaining_io - min (abStep s t) bi.remaining_io = 0 ∧
         (abProcs2 s t).getD j default =
           {s.procs.getD j default with
             executed_io := (s.procs.getD j default).executed_io
               + min (abStep s t) bi.remaining_io} ∧
         (abFin s t).filter (fun b => b.pid = j) = [] ∧
         (abKeep s t).filter (fun b => b.pid = j)
           = [{bi with remaining_io := bi.remaining_io - min (abStep s t) bi.remaining_io}]))) := by
  by_cases h0 : countB s.blocked j = 0
  · left
    have hparts := abFin_keep_count s t j
    have hfin0 : countB (abFin s t) j = 0 := by omega
    have hkeep0 : countB (abKeep s t) j = 0 := by omega
    refine ⟨h0, ?_, ?_, ?_⟩
    · rw [abProcs2_getD_zero s t j hfin0, abProcs1_getD_zero s t j h0]
    · have := countB_eq_length_filter (abFin s t) j
      rw [hfin0] at this
      exact List.length_eq_zero.mp this.symm
    · have := countB_eq_length_filter (abKeep s t) j
      rw [hkeep0] at this
      exact List.length_eq_zero.mp this.symm
  · right
    rcases InvG_blocked_singleton s r? inv j hj (by omega) with ⟨bi, hfil, hmem, hpid⟩
    have h1 : countB s.blocked j = 1 := le_antisymm (InvG_countB_le_one s r? inv j hj) (by omega)
    refine ⟨bi, hmem, hpid, h1, ?_⟩
    rcases abFin_keep_filter s t j bi hfil with ⟨hz, hfinf, hkeepf⟩ | ⟨hz, hfinf, hkeepf⟩
    · left
      have hdec : min (abStep s t) bi.remaining_io = bi.remaining_io := by omega
      refine ⟨hz, ?_, ?_, hkeepf⟩
      · rw [abProcs2_getD_one s t j _ hj hfinf, abProcs1_getD_one s t j bi hj hfil, hdec]
      · rw [hfinf, hz]
    · right
      have hfin0 : countB (abFin s t) j = 0 := by
        rw [countB_eq_length_filter, hfinf]
        rfl
      refine ⟨hz, ?_, hfinf, hkeepf⟩
      rw [abProcs2_getD_zero s t j hfin0, abProcs1_getD_one s t j bi hj hfil]

theorem abProcs1_MiP (s : Sim) (t : Int) : MiP (abProcs1 s t) = MiP s.procs := by
  unfold abProcs1
  exact @MiP_foldl_proj BlockedItem (fun bi => bi.pid)
    (fun bi p => {p with executed_io := p.executed_io + min (abStep s t) bi.remaining_io})
    (fun _ _ => rfl) (sortB s.blocked) s.procs

theorem abIter_MiP_le (s : Sim) (t : Int) (r? : Option (Nat × Int)) (inv : InvG s r?) :
    MiP (abProcs2 s t) ≤ MiP s.procs := by
  have hnn : ∀ bi ∈ abFin s t, ∀ b ∈ ((abProcs1 s t).getD bi.pid default).bursts, 0 ≤ b := by
    intro bi _ b hb
    rw [abProcs1_bursts] at hb
    exact InvG_bursts_nonneg s r? inv bi.pid b hb
  have h1 : MiP (abProcs2 s t) ≤ MiP (abProcs1 s t) := by
    unfold abProcs2
    exact MiP_foldl_tail_le (abFin s t) (abProcs1 s t) hnn
  rw [abProcs1_MiP] at h1
  exact h1

theorem abIter_MiP_strict (s : Sim) (t : Int) (r? : Option (Nat × Int)) (inv : InvG s r?)
    (hb : s.blocked ≠ [])
    (hle : ((sortB s.blocked).headD default).remaining_io ≤ t) :
    MiP (abProcs2 s t) ≤ MiP s.procs - 1 := by
  obtain ⟨bi0, rest, hs⟩ : ∃ bi rest, sortB s.blocked = bi :: rest := by
    cases h : sortB s.blocked with
    | nil => exact absurd h (sortB_ne_nil _ hb)
    | cons a as => exact ⟨a, as, rfl⟩
  have hmem0 : bi0 ∈ s.blocked := (sortB_perm s.blocked).subset (by rw [hs]; exact List.mem_cons_self _ _)
  have hlt0 : bi0.pid < s.procs.length := inv.blockedLt bi0 hmem0
  have hbk0 := inv.blockedOk bi0 hmem0
  have hstep0 : abStep s t = bi0.remaining_io := by
    unfold abStep
    rw [hs]
    have hle2 : bi0.remaining_io ≤ t := by
      rw [hs] at hle
      simpa using hle
    simpa using min_eq_left hle2
  have hfin_cons : abFin s t = {bi0 with remaining_io := 0} ::
      ((rest.map (fun bi =>
        {bi with remaining_io := bi.remaining_io - min (abStep s t) bi.remaining_io})).filter
        (fun bi => bi.remaining_io = 0)) := by
    unfold abFin abDecd
    rw [hs, List.map_cons]
    have hz : bi0.remaining_io - min (abStep s t) bi0.remaining_io = 0 := by
      rw [hstep0]
      simp
    rw [List.filter_cons_of_pos (by simpa using hz)]
    congr 1
    rw [hz]
  have hhead1 : 1 ≤ ((abProcs1 s t).getD bi0.pid default).bursts.headD 0 := by
    rw [show ((abProcs1 s t).getD bi0.pid default).bursts
        = (s.procs.getD bi0.pid default).bursts from abProcs1_bursts s t bi0.pid]
    exact headD_pos _ hbk0.ne hbk0.pos
  have hnn1 : ∀ b ∈ ((abProcs1 s t).getD bi0.pid default).bursts, 0 ≤ b := by
    intro b hbm
    rw [abProcs1_bursts] at hbm
    exact InvG_bursts_nonneg s r? inv bi0.pid b hbm
  have hlen1 : bi0.pid < (abProcs1 s t).length := by
    rw [abProcs1_length]
    exact hlt0
  have hMi1 : MiP (updAt (abProcs1 s t) bi0.pid (fun p => {p with bursts := p.bursts.tail}))
      ≤ MiP (abProcs1 s t) - 1 := by
    rw [MiP_updAt_tail _ _ hlen1]
    omega
  have hrest : MiP (abProcs2 s t)
      ≤ MiP (updAt (abProcs1 s t) bi0.pid (fun p => {p with bursts := p.bursts.tail})) := by
    unfold abProcs2
    rw [hfin_cons, List.foldl_cons]
    refine MiP_foldl_tail_le _ _ ?_
    intro bj _ b hbm
    by_cases he : bj.pid = bi0.pid
    · rw [he] at hbm
      rw [getD_updAt_self _ _ _ hlen1] at hbm
      simp only [] at hbm
      exact hnn1 b (List.mem_of_mem_tail hbm)
    · rw [getD_updAt_ne _ _ _ _ he] at hbm
      rw [abProcs1_bursts] at hbm
      exact InvG_bursts_nonneg s r? inv bj.pid b hbm
  have := abProcs1_MiP s t
  omega


/-! ### Process-state transitions -/

theorem ProcBlocked_to_ready (p : Proc) (rem : Int) (h : ProcBlocked p rem) :
    ProcReady {p with executed_io := p.executed_io + rem, bursts := p.bursts.tail} := by
  rcases h with ⟨hne, heven, hpos, hrpos, hcpu, hio⟩
  rcases hl : p.bursts with _ | ⟨b0, bs⟩
  · exact absurd hl hne
  · rw [hl] at heven hpos hcpu hio
    simp only [List.length_cons] at heven
    rw [sumOdd_cons] at hcpu
    simp only [List.tail_cons] at hio
    constructor
    · simp only [hl, List.tail_cons]
      intro hc
      rw [hc] at heven
      simp at heven
    · simp only [hl, List.tail_cons]
      omega
    · simp only [hl, List.tail_cons]
      intro b hbm
      exact hpos b (List.mem_cons_of_mem _ hbm)
    · simp only [hl, List.tail_cons]
      exact hcpu
    · simp only [hl, List.tail_cons]
      exact hio

theorem ProcBlocked_advance (p : Proc) (rem dec : Int) (h : ProcBlocked p rem)
    (hd : dec ≤ rem) (hne : ¬ rem - dec = 0) :
    ProcBlocked {p with executed_io := p.executed_io + dec} (rem - dec) := by
  constructor
  · exact h.ne
  · exact h.even
  · exact h.pos
  · have := h.rpos
    omega
  · exact h.cpu
  · have := h.io
    show p.executed_io + dec + (rem - dec) + sumOdd p.bursts.tail = p.total_io
    omega

/-! ### One `advance_blocked` iteration preserves the invariant -/

theorem abIter_invG (s : Sim) (t : Int) (r? : Option (Nat × Int)) (inv : InvG s r?) :
    InvG (abIter s t).1 r? := by
  have hfst : (abIter s t).1 = ⟨s.strategy, s.quantum, s.time_elapsed,
      s.ready ++ (abFin s t).map (fun bi => bi.pid), abKeep s t, abProcs2 s t,
      s.completed, s.order_counter, s.events⟩ := congrArg Prod.fst (abIter_eq s t)
  rw [hfst]
  have hlen2 : (abProcs2 s t).length = s.procs.length := abProcs2_length s t
  constructor
  case uniq =>
    intro j hj
    dsimp only at hj ⊢
    rw [hlen2] at hj
    rw [List.count_append]
    have hmap : ((abFin s t).map (fun bi => bi.pid)).count j = countB (abFin s t) j :=
      (count_map_key (fun bi => bi.pid) (abFin s t) j).trans rfl
    have hparts := abFin_keep_count s t j
    have hu := inv.uniq j hj
    omega
  case readyLt =>
    intro i hi
    dsimp only at hi ⊢
    rw [hlen2]
    rcases List.mem_append.mp hi with hold | hnew
    · exact inv.readyLt i hold
    · rcases List.mem_map.mp hnew with ⟨bi', hbi', rfl⟩
      rcases abDecd_mem s t (abFin_mem s t hbi') with ⟨bi, hbi, rfl⟩
      exact inv.blockedLt bi hbi
  case blockedLt =>
    intro bi' hbi'
    dsimp only at hbi' ⊢
    rw [hlen2]
    rcases abDecd_mem s t (abKeep_mem s t hbi') with ⟨bi, hbi, rfl⟩
    exact inv.blockedLt bi hbi
  case complLt =>
    intro e he
    dsimp only at he ⊢
    rw [hlen2]
    exact inv.complLt e he
  case readyOk =>
    intro i hi
    dsimp only at hi ⊢
    rcases List.mem_append.mp hi with hold | hnew
    · have hilt := inv.readyLt i hold
      have hcnt : countB s.blocked i = 0 := by
        have hu := inv.uniq i hilt
        have hpos : 0 < s.ready.count i := (count_pos_iff_mem _ _).mpr hold
        omega
      rcases abIter_getD s t r? inv i hilt with ⟨-, hget, -, -⟩ | ⟨bi, -, -, hcnt1, -⟩
      · show ProcReady ((abProcs2 s t).getD i default)
        rw [hget]
        exact inv.readyOk i hold
      · omega
    · rcases List.mem_map.mp hnew with ⟨bi', hbi', hpid⟩
      have hilt : bi'.pid < s.procs.length := by
        rcases abDecd_mem s t (abFin_mem s t hbi') with ⟨bi, hbi, rfl⟩
        exact inv.blockedLt bi hbi
      subst hpid
      have hposf : 0 < countB (abFin s t) bi'.pid :=
        (countB_pos_iff _ _).mpr ⟨bi', hbi', rfl⟩
      rcases abIter_getD s t r? inv bi'.pid hilt with ⟨-, -, hfil0, -⟩ |
        ⟨bi, hbim, hbip, -, hcase⟩
      · rw [countB_eq_length_filter, hfil0] at hposf
        simp at hposf
      · rcases hcase with ⟨hz, hget, -, -⟩ | ⟨-, -, hfil0, -⟩
        · show ProcReady ((abProcs2 s t).getD bi'.pid default)
          rw [hget]
          have hPB : ProcBlocked (getP s bi'.pid) bi.remaining_io := by
            have := inv.blockedOk bi hbim
            rwa [hbip] at this
          exact ProcBlocked_to_ready _ _ hPB
        · rw [countB_eq_length_filter, hfil0] at hposf
          simp at hposf
  case blockedOk =>
    intro bi' hbi'
    dsimp only at hbi' ⊢
    have hilt : bi'.pid < s.procs.length := by
      rcases abDecd_mem s t (abKeep_mem s t hbi') with ⟨bi, hbi, rfl⟩
      exact inv.blockedLt bi hbi
    have hposk : 0 < countB (abKeep s t) bi'.pid :=
      (countB_pos_iff _ _).mpr ⟨bi', hbi', rfl⟩
    rcases abIter_getD s t r? inv bi'.pid hilt with ⟨-, -, -, hk0⟩ |
      ⟨bi, hbim, hbip, -, hcase⟩
    · rw [countB_eq_length_filter, hk0] at hposk
      simp at hposk
    · rcases hcase with ⟨-, -, -, hk0⟩ | ⟨hz, hget, -, hk1⟩
      · rw [countB_eq_length_filter, hk0] at hposk
        simp at hposk
      · have hbmem : bi' ∈ (abKeep s t).filter (fun b => b.pid = bi'.pid) :=
          List.mem_filter.mpr ⟨hbi', by simp⟩
        rw [hk1] at hbmem
        have heq : bi' = {bi with
            remaining_io := bi.remaining_io - min (abStep s t) bi.remaining_io} := by
          simpa using hbmem
        have hrem : bi'.remaining_io
            = bi.remaining_io - min (abStep s t) bi.remaining_io := by
          rw [heq]
        show ProcBlocked ((abProcs2 s t).getD bi'.pid default) bi'.remaining_io
        rw [hget, hrem]
        have hPB : ProcBlocked (getP s bi'.pid) bi.remaining_io := by
          have := inv.blockedOk bi hbim
          rwa [hbip] at this
        exact ProcBlocked_advance _ _ _ hPB (min_le_right _ _) hz
  case complOk =>
    intro e he
    dsimp only at he ⊢
    have hilt := inv.complLt e he
    have hcnt : countB s.blocked e.2 = 0 := by
      have hu := inv.uniq e.2 hilt
      have hpos : 0 < countC s.completed e.2 := (countC_pos_iff _ _).mpr ⟨e, he, rfl⟩
      omega
    rcases abIter_getD s t r? inv e.2 hilt with ⟨-, hget, -, -⟩ | ⟨bi, -, -, hcnt1, -⟩
    · show ProcDone ((abProcs2 s t).getD e.2 default)
      rw [hget]
      exact inv.complOk e he
    · omega
  case complTime =>
    intro e he
    dsimp only at he ⊢
    have hilt := inv.complLt e he
    have hcnt : countB s.blocked e.2 = 0 := by
      have hu := inv.uniq e.2 hilt
      have hpos : 0 < countC s.completed e.2 := (countC_pos_iff _ _).mpr ⟨e, he, rfl⟩
      omega
    rcases abIter_getD s t r? inv e.2 hilt with ⟨-, hget, -, -⟩ | ⟨bi, -, -, hcnt1, -⟩
    · show ((abProcs2 s t).getD e.2 default).completion_time = e.1
      rw [hget]
      exact inv.complTime e he
    · omega
  case timesLe =>
    intro e he
    dsimp only at he ⊢
    exact inv.timesLe e he
  case timesInc =>
    dsimp only
    exact inv.timesInc
  case timeNN =>
    dsimp only
    exact inv.timeNN
  case pidOk =>
    intro j hj
    dsimp only at hj ⊢
    rw [hlen2] at hj
    show ((abProcs2 s t).getD j default).pid = j
    rw [(abProcs2_totals s t j).2.2.1]
    exact inv.pidOk j hj
  case qpos =>
    dsimp only
    exact inv.qpos
  case runLt =>
    intro r rem hr
    dsimp only
    rw [hlen2]
    exact inv.runLt r rem hr
  case runOk =>
    intro r rem hr
    dsimp only
    have hrlt := inv.runLt r rem hr
    have hcnt : countB s.blocked r = 0 := by
      have hu := inv.uniq r hrlt
      have hx : runExtra r? r = 1 := by
        rw [hr]
        simp [runExtra]
      omega
    rcases abIter_getD s t r? inv r hrlt with ⟨-, hget, -, -⟩ | ⟨bi, -, -, hcnt1, -⟩
    · refine ⟨?_, (inv.runOk r rem hr).2⟩
      show ProcMid ((abProcs2 s t).getD r default) rem
      rw [hget]
      exact (inv.runOk r rem hr).1
    · omega


/-! ### `advance_blocked` preserves the invariant -/

theorem advanceBlocked_inv (s : Sim) (t : Int) (r? : Option (Nat × Int)) (inv : InvG s r?) :
    InvG (advanceBlocked s t) r? ∧
    MiP (advanceBlocked s t).procs ≤ MiP s.procs ∧
    (advanceBlocked s t).strategy = s.strategy ∧
    (advanceBlocked s t).quantum = s.quantum ∧
    (advanceBlocked s t).time_elapsed = s.time_elapsed ∧
    (advanceBlocked s t).completed = s.completed ∧
    (advanceBlocked s t).order_counter = s.order_counter ∧
    (advanceBlocked s t).events = s.events ∧
    (advanceBlocked s t).procs.length = s.procs.length ∧
    (∀ j, j < s.procs.length → countB s.blocked j = 0 →
      getP (advanceBlocked s t) j = getP s j) ∧
    (∀ j, ((advanceBlocked s t).procs.getD j default).total_cpu
            = (s.procs.getD j default).total_cpu ∧
          ((advanceBlocked s t).procs.getD j default).total_io
            = (s.procs.getD j default).total_io) ∧
    (∃ ext, (advanceBlocked s t).ready = s.ready ++ ext) := by
  revert inv
  induction s, t using advanceBlocked.induct with
  | case1 s t h ih =>
    intro inv
    have hfst : (abIter s t).1 = ⟨s.strategy, s.quantum, s.time_elapsed,
        s.ready ++ (abFin s t).map (fun bi => bi.pid), abKeep s t, abProcs2 s t,
        s.completed, s.order_counter, s.events⟩ := congrArg Prod.fst (abIter_eq s t)
    have inv1 : InvG (abIter s t).1 r? := abIter_invG s t r? inv
    obtain ⟨I, M, St, Q, T, C, O, E, L, G, TT, R⟩ := ih inv1
    rw [advanceBlocked, dif_pos h]
    have hMi2 : MiP (abIter s t).1.procs = MiP (abProcs2 s t) := by rw [hfst]
    have hMile := abIter_MiP_le s t r? inv
    refine ⟨I, by omega, ?_, ?_, ?_, ?_, ?_, ?_, ?_, ?_, ?_, ?_⟩
    · rw [St, hfst]
    · rw [Q, hfst]
    · rw [T, hfst]
    · rw [C, hfst]
    · rw [O, hfst]
    · rw [E, hfst]
    · rw [L, hfst]
      exact abProcs2_length s t
    · intro j hj hcnt
      have hkeep0 : countB (abKeep s t) j = 0 := by
        have := abFin_keep_count s t j
        omega
      have hstep1 : getP (abIter s t).1 j = getP s j := by
        rcases abIter_getD s t r? inv j hj with ⟨-, hget, -, -⟩ | ⟨bi, -, -, hcnt1, -⟩
        · show ((abIter s t).1.procs.getD j default) = getP s j
          rw [hfst]
          exact hget
        · omega
      have hstep2 : getP (advanceBlocked (abIter s t).1 (abIter s t).2) j
          = getP (abIter s t).1 j := by
        refine G j ?_ ?_
        · rw [hfst]
          rw [abProcs2_length s t]
          exact hj
        · rw [hfst]
          exact hkeep0
      rw [hstep2, hstep1]
    · intro j
      have h1 := TT j
      have h2 := abProcs2_totals s t j
      have h3 : (abIter s t).1.procs.getD j default = (abProcs2 s t).getD j default := by
        rw [hfst]
      rw [h3] at h1
      exact ⟨h1.1.trans h2.1, h1.2.trans h2.2.1⟩
    · rcases R with ⟨ext, hext⟩
      refine ⟨(abFin s t).map (fun bi => bi.pid) ++ ext, ?_⟩
      rw [hext, hfst]
      simp [List.append_assoc]
  | case2 s t h =>
    intro inv
    rw [advanceBlocked, dif_neg h]
    exact ⟨inv, le_refl _, rfl, rfl, rfl, rfl, rfl, rfl, rfl,
      fun j _ _ => rfl, fun j => ⟨rfl, rfl⟩, ⟨[], by simp⟩⟩

theorem advanceBlocked_MiP_strict (s : Sim) (t : Int) (r? : Option (Nat × Int))
    (inv : InvG s r?) (hb : s.blocked ≠ []) (ht : 0 < t)
    (hle : ((sortB s.blocked).headD default).remaining_io ≤ t) :
    MiP (advanceBlocked s t).procs ≤ MiP s.procs - 1 := by
  rw [advanceBlocked, dif_pos ⟨ht, hb⟩]
  have h1 := abIter_MiP_strict s t r? inv hb hle
  have inv1 : InvG (abIter s t).1 r? := abIter_invG s t r? inv
  have h2 := (advanceBlocked_inv (abIter s t).1 (abIter s t).2 r? inv1).2.1
  have h3 : MiP (abIter s t).1.procs = MiP (abProcs2 s t) := by
    rw [congrArg Prod.fst (abIter_eq s t)]
  omega


/-! ### One sub-step preserves the invariant -/

theorem ProcMid_advance (p : Proc) (rem step : Int) (h : ProcMid p rem) (hs : step ≤ rem) :
    ProcMid {p with
              executed_cpu := p.executed_cpu + step,
              bursts := decFront p.bursts step} (rem - step) := by
  rcases h with ⟨hne, hodd, hge, hnn, htpos, hcpu, hio⟩
  constructor
  · show decFront p.bursts step ≠ []
    exact decFront_ne_nil _ _ hne
  · show (decFront p.bursts step).length % 2 = 1
    rw [decFront_length]
    exact hodd
  · show rem - step ≤ (decFront p.bursts step).headD 0
    rw [decFront_headD _ _ hne]
    omega
  · show 0 ≤ (decFront p.bursts step).headD 0
    rw [decFront_headD _ _ hne]
    omega
  · show ∀ b ∈ (decFront p.bursts step).tail, 1 ≤ b
    rw [decFront_tail]
    exact htpos
  · show p.executed_cpu + step + sumEven (decFront p.bursts step) = p.total_cpu
    rw [sumEven_decFront _ _ hne]
    omega
  · show p.executed_io + sumOdd (decFront p.bursts step) = p.total_io
    rw [sumOdd_decFront]
    exact hio

theorem subStepState_inv (s : Sim) (pid : Nat) (remaining step : Int)
    (inv : InvG s (some (pid, remaining))) (h1 : 1 ≤ step) (h2 : step ≤ remaining) :
    InvG (subStepState s pid step) (some (pid, remaining - step)) ∧
    subStepState s pid step = ⟨s.strategy, s.quantum, s.time_elapsed + step, s.ready,
      sortB s.blocked,
      updAt s.procs pid (fun p =>
        {p with
          executed_cpu := p.executed_cpu + step,
          bursts := decFront p.bursts step}),
      s.completed, s.order_counter, s.events⟩ ∧
    getP (subStepState s pid step) pid =
      {getP s pid with
        executed_cpu := (getP s pid).executed_cpu + step,
        bursts := decFront (getP s pid).bursts step} ∧
    MiP (subStepState s pid step).procs = MiP s.procs - step ∧
    countB (subStepState s pid step).blocked pid = 0 := by
  have hpidlt : pid < s.procs.length := inv.runLt pid remaining rfl
  have hmid : ProcMid (getP s pid) remaining := (inv.runOk pid remaining rfl).1
  have hx : runExtra (some (pid, remaining)) pid = 1 := by simp [runExtra]
  have hcnt0 : countB s.blocked pid = 0 := by
    have hu := inv.uniq pid hpidlt
    omega
  have hsss : subStepState s pid step = ⟨s.strategy, s.quantum, s.time_elapsed + step, s.ready,
      sortB s.blocked,
      updAt s.procs pid (fun p =>
        {p with
          executed_cpu := p.executed_cpu + step,
          bursts := decFront p.bursts step}),
      s.completed, s.order_counter, s.events⟩ := rfl
  have hlen : (updAt s.procs pid (fun p =>
      {p with
        executed_cpu := p.executed_cpu + step,
        bursts := decFront p.bursts step})).length = s.procs.length := updAt_length _ _ _
  have hgetpid : getP (subStepState s pid step) pid =
      {getP s pid with
        executed_cpu := (getP s pid).executed_cpu + step,
        bursts := decFront (getP s pid).bursts step} := by
    show (updAt s.procs pid _).getD pid default = _
    rw [getD_updAt_self _ _ _ hpidlt]
    rfl
  have hne_of_count : ∀ j, j < s.procs.length →
      (0 < s.ready.count j ∨ 0 < countB s.blocked j ∨ 0 < countC s.completed j) → j ≠ pid := by
    intro j hj hc he
    subst he
    have hu := inv.uniq j hj
    omega
  refine ⟨?_, hsss, hgetpid, ?_, ?_⟩
  · rw [hsss]
    constructor
    case uniq =>
      intro j hj
      dsimp only at hj ⊢
      rw [hlen] at hj
      have hu := inv.uniq j hj
      have hB : countB (sortB s.blocked) j = countB s.blocked j :=
        countB_perm (sortB_perm s.blocked) j
      have hrE : runExtra (some (pid, remaining - step)) j
          = runExtra (some (pid, remaining)) j := rfl
      omega
    case readyLt =>
      intro i hi
      dsimp only at hi ⊢
      rw [hlen]
      exact inv.readyLt i hi
    case blockedLt =>
      intro bi hbi
      dsimp only at hbi ⊢
      rw [hlen]
      exact inv.blockedLt bi ((sortB_perm s.blocked).subset hbi)
    case complLt =>
      intro e he
      dsimp only at he ⊢
      rw [hlen]
      exact inv.complLt e he
    case readyOk =>
      intro i hi
      dsimp only at hi ⊢
      have hilt := inv.readyLt i hi
      have hnp : i ≠ pid := hne_of_count i hilt
        (Or.inl ((count_pos_iff_mem _ _).mpr hi))
      simp only [getP]
      rw [getD_updAt_ne _ _ _ _ hnp]
      exact inv.readyOk i hi
    case blockedOk =>
      intro bi hbi
      dsimp only at hbi ⊢
      have hmem : bi ∈ s.blocked := (sortB_perm s.blocked).subset hbi
      have hilt := inv.blockedLt bi hmem
      have hnp : bi.pid ≠ pid := hne_of_count bi.pid hilt
        (Or.inr (Or.inl ((countB_pos_iff _ _).mpr ⟨bi, hmem, rfl⟩)))
      simp only [getP]
      rw [getD_updAt_ne _ _ _ _ hnp]
      exact inv.blockedOk bi hmem
    case complOk =>
      intro e he
      dsimp only at he ⊢
      have hilt := inv.complLt e he
      have hnp : e.2 ≠ pid := hne_of_count e.2 hilt
        (Or.inr (Or.inr ((countC_pos_iff _ _).mpr ⟨e, he, rfl⟩)))
      simp only [getP]
      rw [getD_updAt_ne _ _ _ _ hnp]
      exact inv.complOk e he
    case complTime =>
      intro e he
      dsimp only at he ⊢
      have hilt := inv.complLt e he
      have hnp : e.2 ≠ pid := hne_of_count e.2 hilt
        (Or.inr (Or.inr ((countC_pos_iff _ _).mpr ⟨e, he, rfl⟩)))
      simp only [getP]
      rw [getD_updAt_ne _ _ _ _ hnp]
      exact inv.complTime e he
    case timesLe =>
      intro e he
      dsimp only at he ⊢
      have := inv.timesLe e he
      omega
    case timesInc =>
      dsimp only
      exact inv.timesInc
    case timeNN =>
      dsimp only
      have := inv.timeNN
      omega
    case pidOk =>
      intro j hj
      dsimp only at hj ⊢
      rw [hlen] at hj
      simp only [getP]
      rw [getD_updAt_proj (fun p => p.pid) s.procs pid j
        (fun p =>
          {p with
            executed_cpu := p.executed_cpu + step,
            bursts := decFront p.bursts step})
        (fun p => rfl)]
      exact inv.pidOk j hj
    case qpos =>
      dsimp only
      exact inv.qpos
    case runLt =>
      intro r rem hr
      dsimp only
      rw [hlen]
      cases hr
      exact hpidlt
    case runOk =>
      intro r rem hr
      cases hr
      refine ⟨?_, ?_⟩
      · simp only [getP]
        rw [getD_updAt_self _ _ _ hpidlt]
        exact ProcMid_advance _ _ _ hmid h2
      · have := (inv.runOk pid remaining rfl).2
        omega
  · rw [hsss]
    dsimp only
    rw [MiP_updAt _ _ _ hpidlt]
    have hsum : (decFront (s.procs.getD pid default).bursts step).sum
        = (s.procs.getD pid default).bursts.sum - step := by
      refine decFront_sum _ _ ?_
      exact hmid.ne
    simp only []
    omega
  · rw [hsss]
    show countB (sortB s.blocked) pid = 0
    rw [countB_perm (sortB_perm s.blocked)]
    exact hcnt0


/-! ### The CPU-segment loop preserves the invariant -/

theorem subStepLoop_inv (s : Sim) (pid : Nat) (remaining : Int) :
    InvG s (some (pid, remaining)) → 0 ≤ remaining →
    (InvG (subStepLoop s pid remaining) (some (pid, 0)) ∧
     (subStepLoop s pid remaining).time_elapsed = s.time_elapsed + remaining ∧
     (subStepLoop s pid remaining).strategy = s.strategy ∧
     (subStepLoop s pid remaining).quantum = s.quantum ∧
     (subStepLoop s pid remaining).completed = s.completed ∧
     (subStepLoop s pid remaining).order_counter = s.order_counter ∧
     (subStepLoop s pid remaining).events = s.events ∧
     (subStepLoop s pid remaining).procs.length = s.procs.length ∧
     getP (subStepLoop s pid remaining) pid =
       {getP s pid with
         executed_cpu := (getP s pid).executed_cpu + remaining,
         bursts := decFront (getP s pid).bursts remaining} ∧
     MiP (subStepLoop s pid remaining).procs ≤ MiP s.procs - remaining ∧
     (∀ j, ((subStepLoop s pid remaining).procs.getD j default).total_cpu
             = (s.procs.getD j default).total_cpu ∧
           ((subStepLoop s pid remaining).procs.getD j default).total_io
             = (s.procs.getD j default).total_io) ∧
     (∃ ext, (subStepLoop s pid remaining).ready = s.ready ++ ext)) := by
  induction s, pid, remaining using subStepLoop.induct with
  | case1 s pid remaining h step ih =>
    intro inv hnn
    have hstepeq : step = stepOf s.blocked remaining := rfl
    have hs0 := stepOf_pos s.blocked remaining h
    rw [← hstepeq] at hs0
    obtain ⟨hs1, hs2⟩ := hs0
    obtain ⟨inv2, hsss, hget2, hMi2, hcnt2⟩ :=
      subStepState_inv s pid remaining step inv hs1 hs2
    obtain ⟨inv3, M3, St3, Q3, T3, C3, O3, E3, L3, G3, TT3, R3⟩ :=
      advanceBlocked_inv (subStepState s pid step) step
        (some (pid, remaining - step)) inv2
    obtain ⟨I, T, St, Q, C, O, E, L, G, M, TT, R⟩ := ih inv3 (by omega)
    have hunf : subStepLoop s pid remaining
        = subStepLoop (advanceBlocked (subStepState s pid step) step) pid
            (remaining - step) := by
      rw [subStepLoop, dif_pos h]
    rw [hunf]
    have hT2 : (subStepState s pid step).time_elapsed = s.time_elapsed + step := by
      rw [hsss]
    have hSt2 : (subStepState s pid step).strategy = s.strategy := by rw [hsss]
    have hQ2 : (subStepState s pid step).quantum = s.quantum := by rw [hsss]
    have hC2 : (subStepState s pid step).completed = s.completed := by rw [hsss]
    have hO2 : (subStepState s pid step).order_counter = s.order_counter := by rw [hsss]
    have hE2 : (subStepState s pid step).events = s.events := by rw [hsss]
    have hR2 : (subStepState s pid step).ready = s.ready := by rw [hsss]
    have hL2 : (subStepState s pid step).procs.length = s.procs.length := by
      rw [hsss]
      exact updAt_length _ _ _
    have hTT2 : ∀ j, ((subStepState s pid step).procs.getD j default).total_cpu
          = (s.procs.getD j default).total_cpu ∧
        ((subStepState s pid step).procs.getD j default).total_io
          = (s.procs.getD j default).total_io := by
      intro j
      rw [hsss]
      constructor
      · exact getD_updAt_proj (fun p => p.total_cpu) s.procs pid j
          (fun p =>
            {p with
              executed_cpu := p.executed_cpu + step,
              bursts := decFront p.bursts step})
          (fun p => rfl)
      · exact getD_updAt_proj (fun p => p.total_io) s.procs pid j
          (fun p =>
            {p with
              executed_cpu := p.executed_cpu + step,
              bursts := decFront p.bursts step})
          (fun p => rfl)
    have hpidlt2 : pid < (subStepState s pid step).procs.length :=
      inv2.runLt pid (remaining - step) rfl
    have hG3pid : getP (advanceBlocked (subStepState s pid step) step) pid
        = getP (subStepState s pid step) pid :=
      G3 pid hpidlt2 hcnt2
    refine ⟨I, ?_, ?_, ?_, ?_, ?_, ?_, ?_, ?_, ?_, ?_, ?_⟩
    · rw [T, T3, hT2]
      ring
    · rw [St, St3, hSt2]
    · rw [Q, Q3, hQ2]
    · rw [C, C3, hC2]
    · rw [O, O3, hO2]
    · rw [E, E3, hE2]
    · rw [L, L3, hL2]
    · rw [G, hG3pid, hget2]
      have e1 : step + (remaining - step) = remaining := by ring
      have e2 : (getP s pid).executed_cpu + step + (remaining - step)
          = (getP s pid).executed_cpu + remaining := by ring
      rw [show ({getP s pid with
          executed_cpu := (getP s pid).executed_cpu + step,
          bursts := decFront (getP s pid).bursts step} : Proc).bursts
        = decFront (getP s pid).bursts step from rfl]
      rw [show ({getP s pid with
          executed_cpu := (getP s pid).executed_cpu + step,
          bursts := decFront (getP s pid).bursts step} : Proc).executed_cpu
        = (getP s pid).executed_cpu + step from rfl]
      rw [decFront_decFront, e1, e2]
    · have hM3 : MiP (advanceBlocked (subStepState s pid step) step).procs
          ≤ MiP (subStepState s pid step).procs := M3
      omega
    · intro j
      exact ⟨(TT j).1.trans ((TT3 j).1.trans (hTT2 j).1),
             (TT j).2.trans ((TT3 j).2.trans (hTT2 j).2)⟩
    · rcases R with ⟨ext2, hext2⟩
      rcases R3 with ⟨ext1, hext1⟩
      refine ⟨ext1 ++ ext2, ?_⟩
      rw [hext2, hext1, hR2, List.append_assoc]
  | case2 s pid remaining h =>
    intro inv hnn
    have h0 : remaining = 0 := by omega
    subst h0
    rw [subStepLoop, dif_neg h]
    refine ⟨inv, by omega, rfl, rfl, rfl, rfl, rfl, rfl, ?_, by omega,
      fun j => ⟨rfl, rfl⟩, ⟨[], by simp⟩⟩
    rw [decFront_zero, add_zero]


/-! ### Post-segment process transitions -/

theorem ProcMid0_done (p : Proc) (h : ProcMid p 0) (hz : p.bursts.headD 0 = 0)
    (htail : p.bursts.tail = []) :
    p.bursts = [0] ∧ p.executed_cpu = p.total_cpu ∧ p.executed_io = p.total_io := by
  rcases h with ⟨hne, hodd, hge, hnn, htpos, hcpu, hio⟩
  rcases hl : p.bursts with _ | ⟨b0, bs⟩
  · exact absurd hl hne
  · rw [hl] at hz htail hcpu hio
    simp only [List.headD_cons, List.tail_cons] at hz htail
    subst hz
    subst htail
    simp only [sumEven, sumOdd] at hcpu hio
    exact ⟨rfl, by omega, by omega⟩

theorem ProcMid0_to_blocked (p : Proc) (h : ProcMid p 0) (hz : p.bursts.headD 0 = 0)
    (htail : p.bursts.tail ≠ []) :
    ProcBlocked {p with bursts := p.bursts.tail} (p.bursts.tail.headD 0) ∧
    1 ≤ p.bursts.tail.headD 0 := by
  rcases h with ⟨hne, hodd, hge, hnn, htpos, hcpu, hio⟩
  rcases hl : p.bursts with _ | ⟨b0, bs⟩
  · exact absurd hl hne
  · rw [hl] at hz htail hodd htpos hcpu hio
    simp only [List.headD_cons, List.tail_cons, List.length_cons] at hz htail htpos hodd ⊢
    subst hz
    rcases bs with _ | ⟨io0, bs2⟩
    · exact absurd rfl htail
    · rw [sumEven_cons, sumOdd_cons] at hcpu
      rw [sumOdd_cons, sumEven_cons] at hio
      have hio0 : 1 ≤ io0 := htpos io0 (List.mem_cons_self _ _)
      refine ⟨⟨?_, ?_, ?_, ?_, ?_, ?_⟩, hio0⟩
      · show io0 :: bs2 ≠ []
        simp
      · show (io0 :: bs2).length % 2 = 0
        simp only [List.length_cons] at hodd ⊢
        omega
      · show ∀ b ∈ io0 :: bs2, 1 ≤ b
        exact htpos
      · exact hio0
      · show p.executed_cpu + sumOdd (io0 :: bs2) = p.total_cpu
        rw [sumOdd_cons]
        omega
      · show p.executed_io + io0 + sumOdd (io0 :: bs2).tail = p.total_io
        simp only [List.tail_cons]
        omega

theorem ProcMid0_requeue (p : Proc) (h : ProcMid p 0) (hz : ¬ p.bursts.headD 0 = 0) :
    ProcReady p := by
  rcases h with ⟨hne, hodd, hge, hnn, htpos, hcpu, hio⟩
  rcases hl : p.bursts with _ | ⟨b0, bs⟩
  · exact absurd hl hne
  · rw [hl] at hz hnn htpos
    simp only [List.headD_cons, List.tail_cons] at hz hnn htpos
    refine ⟨hne, hodd, ?_, hcpu, hio⟩
    intro b hb
    rw [hl] at hb
    rcases List.mem_cons.mp hb with hb0 | hbs
    · subst hb0
      omega
    · exact htpos b hbs


/-! ### Explicit forms of the post-segment branching -/

theorem headD_one_eq_headD_zero (l : List Int) (h : l ≠ []) : l.headD 1 = l.headD 0 := by
  cases l with
  | nil => exact absurd rfl h
  | cons x xs => rfl

theorem afterSegment_eq_complete (s1 : Sim) (pid : Nat) (hpidlt : pid < s1.procs.length)
    (hz : (getP s1 pid).bursts.headD 0 = 0) (ht : (getP s1 pid).bursts.tail = []) :
    afterSegment s1 pid = ⟨s1.strategy, s1.quantum, s1.time_elapsed, s1.ready, s1.blocked,
      updAt (updAt s1.procs pid (fun q => {q with bursts := q.bursts.tail})) pid
        (fun q => {q with completion_time := s1.time_elapsed}),
      s1.completed ++ [(s1.time_elapsed, pid)], s1.order_counter,
      s1.events ++ [⟨pid, (getP s1 pid).executed_cpu, (getP s1 pid).executed_io,
        s1.time_elapsed, Reason.completed⟩]⟩ := by
  have hgp : getP {s1 with
      procs := updAt s1.procs pid (fun q => {q with bursts := q.bursts.tail})} pid
      = {getP s1 pid with bursts := (getP s1 pid).bursts.tail} := by
    show (updAt s1.procs pid _).getD pid default = _
    rw [getD_updAt_self _ _ _ hpidlt]
    rfl
  simp only [afterSegment]
  rw [if_pos hz, hgp]
  have hcond : ({getP s1 pid with bursts := (getP s1 pid).bursts.tail} : Proc).bursts.isEmpty
      = true := by
    show ((getP s1 pid).bursts.tail).isEmpty = true
    rw [ht]
    rfl
  rw [if_pos hcond]

theorem afterSegment_eq_io (s1 : Sim) (pid : Nat) (hpidlt : pid < s1.procs.length)
    (hz : (getP s1 pid).bursts.headD 0 = 0) (ht : (getP s1 pid).bursts.tail ≠ [])
    (hio0 : 1 ≤ (getP s1 pid).bursts.tail.headD 0) :
    afterSegment s1 pid = ⟨s1.strategy, s1.quantum, s1.time_elapsed, s1.ready,
      sortB (s1.blocked ++ [⟨pid, (getP s1 pid).bursts.tail.headD 0, s1.order_counter⟩]),
      updAt s1.procs pid (fun q => {q with bursts := q.bursts.tail}),
      s1.completed, s1.order_counter + 1,
      s1.events ++ [⟨pid, (getP s1 pid).executed_cpu, (getP s1 pid).executed_io,
        s1.time_elapsed, Reason.enterIo⟩]⟩ := by
  have hgp : getP {s1 with
      procs := updAt s1.procs pid (fun q => {q with bursts := q.bursts.tail})} pid
      = {getP s1 pid with bursts := (getP s1 pid).bursts.tail} := by
    show (updAt s1.procs pid _).getD pid default = _
    rw [getD_updAt_self _ _ _ hpidlt]
    rfl
  simp only [afterSegment]
  rw [if_pos hz, hgp]
  have hcond : ({getP s1 pid with bursts := (getP s1 pid).bursts.tail} : Proc).bursts.isEmpty
      = false := by
    show ((getP s1 pid).bursts.tail).isEmpty = false
    rcases hl : (getP s1 pid).bursts.tail with _ | ⟨x, xs⟩
    · exact absurd hl ht
    · rfl
  rw [if_neg (by rw [hcond]; exact Bool.false_ne_true)]
  -- now the moveToBlocked call on the explicit state
  simp only [moveToBlocked]
  have hgp2 : getP {s1 with
      procs := updAt s1.procs pid (fun q => {q with bursts := q.bursts.tail}),
      events := s1.events ++ [⟨pid, ({getP s1 pid with
        bursts := (getP s1 pid).bursts.tail} : Proc).executed_cpu,
        ({getP s1 pid with bursts := (getP s1 pid).bursts.tail} : Proc).executed_io,
        s1.time_elapsed, Reason.enterIo⟩]} pid
      = {getP s1 pid with bursts := (getP s1 pid).bursts.tail} := by
    show (updAt s1.procs pid _).getD pid default = _
    rw [getD_updAt_self _ _ _ hpidlt]
    rfl
  rw [hgp2]
  have hc1 : ¬ (({getP s1 pid with bursts := (getP s1 pid).bursts.tail} : Proc).bursts ≠ [] ∧
      ({getP s1 pid with bursts := (getP s1 pid).bursts.tail} : Proc).bursts.headD 1 = 0) := by
    rintro ⟨h1, h2⟩
    have h3 : (getP s1 pid).bursts.tail.headD 1 = (getP s1 pid).bursts.tail.headD 0 :=
      headD_one_eq_headD_zero _ ht
    show False
    have h4 : (getP s1 pid).bursts.tail.headD 1 = 0 := h2
    omega
  rw [if_neg hc1, hgp2]
  have hc2 : (({getP s1 pid with bursts := (getP s1 pid).bursts.tail} : Proc).bursts ≠ []) := ht
  rw [if_pos hc2]

theorem afterSegment_eq_expired (s1 : Sim) (pid : Nat)
    (hz : ¬ (getP s1 pid).bursts.headD 0 = 0) :
    afterSegment s1 pid = ⟨s1.strategy, s1.quantum, s1.time_elapsed, s1.ready ++ [pid],
      s1.blocked, s1.procs, s1.completed, s1.order_counter,
      s1.events ++ [⟨pid, (getP s1 pid).executed_cpu, (getP s1 pid).executed_io,
        s1.time_elapsed, Reason.quantumExpired⟩]⟩ := by
  simp only [afterSegment]
  rw [if_neg hz]


theorem afterSegment_inv (s1 : Sim) (pid : Nat) (inv : InvG s1 (some (pid, 0)))
    (hstrict : ∀ e ∈ s1.completed, e.1 < s1.time_elapsed) :
    Inv (afterSegment s1 pid) ∧
    MiP (afterSegment s1 pid).procs ≤ MiP s1.procs ∧
    (afterSegment s1 pid).time_elapsed = s1.time_elapsed ∧
    (afterSegment s1 pid).strategy = s1.strategy ∧
    (afterSegment s1 pid).quantum = s1.quantum ∧
    (afterSegment s1 pid).procs.length = s1.procs.length ∧
    (∀ j, ((afterSegment s1 pid).procs.getD j default).total_cpu
            = (s1.procs.getD j default).total_cpu ∧
          ((afterSegment s1 pid).procs.getD j default).total_io
            = (s1.procs.getD j default).total_io) ∧
    (∃ e : Event, (afterSegment s1 pid).events = s1.events ++ [e] ∧ e.pid = pid ∧
      e.time = s1.time_elapsed ∧
      ((getP s1 pid).bursts.headD 0 = 0 →
        (afterSegment s1 pid).ready = s1.ready ∧
        (e.reason = Reason.completed ∨ e.reason = Reason.enterIo)) ∧
      (¬ (getP s1 pid).bursts.headD 0 = 0 →
        e.reason = Reason.quantumExpired ∧
        (afterSegment s1 pid).ready = s1.ready ++ [pid] ∧
        getP (afterSegment s1 pid) pid = getP s1 pid)) := by
  have hpidlt : pid < s1.procs.length := inv.runLt pid 0 rfl
  have hmid : ProcMid (getP s1 pid) 0 := (inv.runOk pid 0 rfl).1
  have hu := inv.uniq pid hpidlt
  have hruns : runExtra (some (pid, 0)) pid = 1 := by
    simp [runExtra]
  rw [hruns] at hu
  have hr0 : s1.ready.count pid = 0 := by omega
  have hb0 : countB s1.blocked pid = 0 := by omega
  have hc0 : countC s1.completed pid = 0 := by omega
  have hnotmemR : pid ∉ s1.ready := List.count_eq_zero.mp hr0
  have hbne : ∀ bi ∈ s1.blocked, bi.pid ≠ pid := by
    intro bi hbi heq
    have : 0 < countB s1.blocked pid := (countB_pos_iff _ _).mpr ⟨bi, hbi, heq⟩
    omega
  have hcne : ∀ e ∈ s1.completed, e.2 ≠ pid := by
    intro e he heq
    have : 0 < countC s1.completed pid := (countC_pos_iff _ _).mpr ⟨e, he, heq⟩
    omega
  have huniq0 : ∀ j, j < s1.procs.length → j ≠ pid →
      s1.ready.count j + countB s1.blocked j + countC s1.completed j = 1 := by
    intro j hj hne
    have h2 := inv.uniq j hj
    simp only [runExtra] at h2
    rw [if_neg hne] at h2
    omega
  by_cases hz : (getP s1 pid).bursts.headD 0 = 0
  · by_cases ht : (getP s1 pid).bursts.tail = []
    · -- the process completed
      rw [afterSegment_eq_complete s1 pid hpidlt hz ht]
      obtain ⟨hb01, hecpu, heio⟩ := ProcMid0_done (getP s1 pid) hmid hz ht
      have hgAne : ∀ j, j ≠ pid →
          (updAt (updAt s1.procs pid (fun q => {q with bursts := q.bursts.tail})) pid
            (fun q => {q with completion_time := s1.time_elapsed})).getD j default
          = s1.procs.getD j default := by
        intro j hj
        rw [getD_updAt_ne _ _ _ _ hj, getD_updAt_ne _ _ _ _ hj]
      have hgAself :
          (updAt (updAt s1.procs pid (fun q => {q with bursts := q.bursts.tail})) pid
            (fun q => {q with completion_time := s1.time_elapsed})).getD pid default
          = {getP s1 pid with
              bursts := (getP s1 pid).bursts.tail,
              completion_time := s1.time_elapsed} := by
        rw [getD_updAt_self _ _ _ (by rw [updAt_length]; exact hpidlt),
            getD_updAt_self _ _ _ hpidlt]
        rfl
      have hCapp : ∀ j, countC (s1.completed ++ [(s1.time_elapsed, pid)]) j
          = countC s1.completed j + (if pid = j then 1 else 0) := by
        intro j
        simp [countC, List.countP_append, List.countP_cons]
      refine ⟨⟨?_, ?_, ?_, ?_, ?_, ?_, ?_, ?_, ?_, ?_, ?_, ?_, ?_, ?_, ?_⟩,
        ?_, rfl, rfl, rfl, ?_, ?_, ?_⟩
      · -- uniq
        intro j hj
        simp only [updAt_length] at hj
        simp only [runExtra]
        rw [hCapp j]
        by_cases hjp : j = pid
        · subst hjp
          rw [if_pos rfl]
          omega
        · rw [if_neg (fun h => hjp h.symm)]
          have := huniq0 j hj hjp
          omega
      · exact fun j hj => by simpa only [updAt_length] using inv.readyLt j hj
      · exact fun bi hbi => by simpa only [updAt_length] using inv.blockedLt bi hbi
      · -- complLt
        intro e he
        rcases List.mem_append.mp he with hold | hnew
        · simpa only [updAt_length] using inv.complLt e hold
        · have : e = (s1.time_elapsed, pid) := List.mem_singleton.mp hnew
          subst this
          simpa only [updAt_length] using hpidlt
      · -- readyOk
        intro j hj
        have hjne : j ≠ pid := fun h => hnotmemR (h ▸ hj)
        have h2 : ProcReady (s1.procs.getD j default) := inv.readyOk j hj
        show ProcReady ((updAt (updAt s1.procs pid _) pid _).getD j default)
        rw [hgAne j hjne]
        exact h2
      · -- blockedOk
        intro bi hbi
        have h2 : ProcBlocked (s1.procs.getD bi.pid default) bi.remaining_io :=
          inv.blockedOk bi hbi
        show ProcBlocked ((updAt (updAt s1.procs pid _) pid _).getD bi.pid default)
          bi.remaining_io
        rw [hgAne bi.pid (hbne bi hbi)]
        exact h2
      · -- complOk
        intro e he
        rcases List.mem_append.mp he with hold | hnew
        · have h2 : ProcDone (s1.procs.getD e.2 default) := inv.complOk e hold
          show ProcDone ((updAt (updAt s1.procs pid _) pid _).getD e.2 default)
          rw [hgAne e.2 (hcne e hold)]
          exact h2
        · have heq : e = (s1.time_elapsed, pid) := List.mem_singleton.mp hnew
          subst heq
          show ProcDone ((updAt (updAt s1.procs pid _) pid _).getD pid default)
          rw [hgAself]
          refine ⟨?_, ?_, ?_⟩
          · show (getP s1 pid).bursts.tail = []
            exact ht
          · exact hecpu
          · exact heio
      · -- complTime
        intro e he
        rcases List.mem_append.mp he with hold | hnew
        · have h2 := inv.complTime e hold
          show ((updAt (updAt s1.procs pid _) pid _).getD e.2 default).completion_time = e.1
          rw [hgAne e.2 (hcne e hold)]
          exact h2
        · have heq : e = (s1.time_elapsed, pid) := List.mem_singleton.mp hnew
          subst heq
          show ((updAt (updAt s1.procs pid _) pid _).getD pid default).completion_time
            = s1.time_elapsed
          rw [hgAself]
      · -- timesLe
        intro e he
        rcases List.mem_append.mp he with hold | hnew
        · exact inv.timesLe e hold
        · have heq : e = (s1.time_elapsed, pid) := List.mem_singleton.mp hnew
          subst heq
          exact le_refl _
      · -- timesInc
        refine List.pairwise_append.mpr ⟨inv.timesInc, List.pairwise_singleton _ _, ?_⟩
        intro a ha b hb
        have heq : b = (s1.time_elapsed, pid) := List.mem_singleton.mp hb
        subst heq
        exact hstrict a ha
      · exact inv.timeNN
      · -- pidOk
        intro j hj
        simp only [updAt_length] at hj
        by_cases hjp : j = pid
        · show ((updAt (updAt s1.procs pid _) pid _).getD j default).pid = j
          rw [hjp, hgAself]
          show (getP s1 pid).pid = pid
          exact inv.pidOk pid hpidlt
        · show ((updAt (updAt s1.procs pid _) pid _).getD j default).pid = j
          rw [hgAne j hjp]
          exact inv.pidOk j hj
      · exact inv.qpos
      · intro r rem h
        exact Option.noConfusion h
      · intro r rem h
        exact Option.noConfusion h
      · -- MiP
        have hM1 : MiP (updAt (updAt s1.procs pid
              (fun q => {q with bursts := q.bursts.tail})) pid
              (fun q => {q with completion_time := s1.time_elapsed}))
            = MiP (updAt s1.procs pid (fun q => {q with bursts := q.bursts.tail})) :=
          MiP_updAt_proj _ _ _ (fun p => rfl)
        have hb01' : (s1.procs.getD pid default).bursts = [0] := hb01
        have hM2 : MiP (updAt s1.procs pid (fun q => {q with bursts := q.bursts.tail}))
            = MiP s1.procs := by
          rw [MiP_updAt _ _ _ hpidlt]
          show MiP s1.procs + ((s1.procs.getD pid default).bursts.tail.sum
            - (s1.procs.getD pid default).bursts.sum) = MiP s1.procs
          rw [hb01']
          simp
        show MiP (updAt (updAt s1.procs pid _) pid _) ≤ MiP s1.procs
        rw [hM1, hM2]
      · -- length
        show (updAt (updAt s1.procs pid _) pid _).length = s1.procs.length
        rw [updAt_length, updAt_length]
      · -- totals
        intro j
        constructor
        · exact (getD_updAt_proj (fun p => p.total_cpu)
              (updAt s1.procs pid (fun q => {q with bursts := q.bursts.tail})) pid j
              (fun q => {q with completion_time := s1.time_elapsed}) (fun p => rfl)).trans
            (getD_updAt_proj (fun p => p.total_cpu) s1.procs pid j
              (fun q => {q with bursts := q.bursts.tail}) (fun p => rfl))
        · exact (getD_updAt_proj (fun p => p.total_io)
              (updAt s1.procs pid (fun q => {q with bursts := q.bursts.tail})) pid j
              (fun q => {q with completion_time := s1.time_elapsed}) (fun p => rfl)).trans
            (getD_updAt_proj (fun p => p.total_io) s1.procs pid j
              (fun q => {q with bursts := q.bursts.tail}) (fun p => rfl))
      · -- the appended event
        refine ⟨⟨pid, (getP s1 pid).executed_cpu, (getP s1 pid).executed_io,
          s1.time_elapsed, Reason.completed⟩, rfl, rfl, rfl, ?_, ?_⟩
        · intro _
          exact ⟨rfl, Or.inl rfl⟩
        · intro hcon
          exact absurd hz hcon
    · -- the process enters I/O
      obtain ⟨hpb, hio0⟩ := ProcMid0_to_blocked (getP s1 pid) hmid hz ht
      rw [afterSegment_eq_io s1 pid hpidlt hz ht hio0]
      have hgAne : ∀ j, j ≠ pid →
          (updAt s1.procs pid (fun q => {q with bursts := q.bursts.tail})).getD j default
          = s1.procs.getD j default := by
        intro j hj
        rw [getD_updAt_ne _ _ _ _ hj]
      have hgAself :
          (updAt s1.procs pid (fun q => {q with bursts := q.bursts.tail})).getD pid default
          = {getP s1 pid with bursts := (getP s1 pid).bursts.tail} := by
        rw [getD_updAt_self _ _ _ hpidlt]
        rfl
      have hBperm : ∀ j, countB (sortB (s1.blocked
            ++ [⟨pid, (getP s1 pid).bursts.tail.headD 0, s1.order_counter⟩])) j
          = countB s1.blocked j + (if pid = j then 1 else 0) := by
        intro j
        rw [countB_perm (sortB_perm _) j]
        simp [countB, List.countP_append, List.countP_cons]
      refine ⟨⟨?_, ?_, ?_, ?_, ?_, ?_, ?_, ?_, ?_, ?_, ?_, ?_, ?_, ?_, ?_⟩,
        ?_, rfl, rfl, rfl, ?_, ?_, ?_⟩
      · -- uniq
        intro j hj
        simp only [updAt_length] at hj
        simp only [runExtra]
        rw [hBperm j]
        by_cases hjp : j = pid
        · subst hjp
          rw [if_pos rfl]
          omega
        · rw [if_neg (fun h => hjp h.symm)]
          have := huniq0 j hj hjp
          omega
      · exact fun j hj => by simpa only [updAt_length] using inv.readyLt j hj
      · -- blockedLt
        intro bi hbi
        have hbi2 : bi ∈ s1.blocked
            ++ [⟨pid, (getP s1 pid).bursts.tail.headD 0, s1.order_counter⟩] :=
          (sortB_perm _).mem_iff.mp hbi
        rcases List.mem_append.mp hbi2 with hold | hnew
        · simpa only [updAt_length] using inv.blockedLt bi hold
        · have heq := List.mem_singleton.mp hnew
          subst heq
          simpa only [updAt_length] using hpidlt
      · exact fun e he => by simpa only [updAt_length] using inv.complLt e he
      · -- readyOk
        intro j hj
        have hjne : j ≠ pid := fun h => hnotmemR (h ▸ hj)
        have h2 : ProcReady (s1.procs.getD j default) := inv.readyOk j hj
        show ProcReady ((updAt s1.procs pid _).getD j default)
        rw [hgAne j hjne]
        exact h2
      · -- blockedOk
        intro bi hbi
        have hbi2 : bi ∈ s1.blocked
            ++ [⟨pid, (getP s1 pid).bursts.tail.headD 0, s1.order_counter⟩] :=
          (sortB_perm _).mem_iff.mp hbi
        rcases List.mem_append.mp hbi2 with hold | hnew
        · have h2 : ProcBlocked (s1.procs.getD bi.pid default) bi.remaining_io :=
            inv.blockedOk bi hold
          show ProcBlocked ((updAt s1.procs pid _).getD bi.pid default) bi.remaining_io
          rw [hgAne bi.pid (hbne bi hold)]
          exact h2
        · have heq := List.mem_singleton.mp hnew
          subst heq
          show ProcBlocked ((updAt s1.procs pid _).getD pid default)
            ((getP s1 pid).bursts.tail.headD 0)
          rw [hgAself]
          exact hpb
      · -- complOk
        intro e he
        have h2 : ProcDone (s1.procs.getD e.2 default) := inv.complOk e he
        show ProcDone ((updAt s1.procs pid _).getD e.2 default)
        rw [hgAne e.2 (hcne e he)]
        exact h2
      · -- complTime
        intro e he
        show ((updAt s1.procs pid _).getD e.2 default).completion_time = e.1
        rw [hgAne e.2 (hcne e he)]
        exact inv.complTime e he
      · exact inv.timesLe
      · exact inv.timesInc
      · exact inv.timeNN
      · -- pidOk
        intro j hj
        simp only [updAt_length] at hj
        by_cases hjp : j = pid
        · show ((updAt s1.procs pid _).getD j default).pid = j
          rw [hjp, hgAself]
          show (getP s1 pid).pid = pid
          exact inv.pidOk pid hpidlt
        · show ((updAt s1.procs pid _).getD j default).pid = j
          rw [hgAne j hjp]
          exact inv.pidOk j hj
      · exact inv.qpos
      · intro r rem h
        exact Option.noConfusion h
      · intro r rem h
        exact Option.noConfusion h
      · -- MiP
        show MiP (updAt s1.procs pid _) ≤ MiP s1.procs
        rw [MiP_updAt _ _ _ hpidlt]
        have hne : (s1.procs.getD pid default).bursts ≠ [] := hmid.ne
        have hz' : (s1.procs.getD pid default).bursts.headD 0 = 0 := hz
        rcases hl : (s1.procs.getD pid default).bursts with _ | ⟨b0, bs⟩
        · exact absurd hl hne
        · rw [hl] at hz'
          simp only [List.headD_cons] at hz'
          subst hz'
          show MiP s1.procs + (bs.sum - (0 :: bs).sum) ≤ MiP s1.procs
          simp
      · -- length
        show (updAt s1.procs pid _).length = s1.procs.length
        rw [updAt_length]
      · -- totals
        intro j
        exact ⟨getD_updAt_proj (fun p => p.total_cpu) s1.procs pid j
            (fun q => {q with bursts := q.bursts.tail}) (fun p => rfl),
          getD_updAt_proj (fun p => p.total_io) s1.procs pid j
            (fun q => {q with bursts := q.bursts.tail}) (fun p => rfl)⟩
      · -- the appended event
        refine ⟨⟨pid, (getP s1 pid).executed_cpu, (getP s1 pid).executed_io,
          s1.time_elapsed, Reason.enterIo⟩, rfl, rfl, rfl, ?_, ?_⟩
        · intro _
          exact ⟨rfl, Or.inr rfl⟩
        · intro hcon
          exact absurd hz hcon
  · -- quantum expired: the process is re-enqueued
    rw [afterSegment_eq_expired s1 pid hz]
    have hready : ProcReady (getP s1 pid) := ProcMid0_requeue (getP s1 pid) hmid hz
    refine ⟨⟨?_, ?_, ?_, ?_, ?_, ?_, ?_, ?_, ?_, ?_, ?_, ?_, ?_, ?_, ?_⟩,
      le_refl _, rfl, rfl, rfl, rfl, ?_, ?_⟩
    · -- uniq
      intro j hj
      simp only [runExtra]
      have hcnt : (s1.ready ++ [pid]).count j
          = s1.ready.count j + (if j = pid then 1 else 0) := by
        rw [List.count_append]
        by_cases hjp : j = pid
        · subst hjp
          simp
        · rw [if_neg hjp]
          have : List.count j [pid] = 0 := by
            simp [List.count_cons, hjp]
          omega
      rw [hcnt]
      by_cases hjp : j = pid
      · subst hjp
        rw [if_pos rfl]
        omega
      · rw [if_neg hjp]
        have := huniq0 j hj hjp
        omega
    · -- readyLt
      intro j hj
      rcases List.mem_append.mp hj with hold | hnew
      · exact inv.readyLt j hold
      · have heq := List.mem_singleton.mp hnew
        subst heq
        exact hpidlt
    · exact inv.blockedLt
    · exact inv.complLt
    · -- readyOk
      intro j hj
      rcases List.mem_append.mp hj with hold | hnew
      · exact inv.readyOk j hold
      · have heq := List.mem_singleton.mp hnew
        subst heq
        exact hready
    · exact inv.blockedOk
    · exact inv.complOk
    · exact inv.complTime
    · exact inv.timesLe
    · exact inv.timesInc
    · exact inv.timeNN
    · exact inv.pidOk
    · exact inv.qpos
    · intro r rem h
      exact Option.noConfusion h
    · intro r rem h
      exact Option.noConfusion h
    · exact fun j => ⟨rfl, rfl⟩
    · -- the appended event
      refine ⟨⟨pid, (getP s1 pid).executed_cpu, (getP s1 pid).executed_io,
        s1.time_elapsed, Reason.quantumExpired⟩, rfl, rfl, rfl, ?_, ?_⟩
      · intro hcon
        exact absurd hcon hz
      · intro _
        exact ⟨rfl, rfl, rfl⟩


/-- Sorting the blocked deque preserves the global invariant (it is a
permutation). -/
theorem Inv_sortBlocked (s : Sim) (r? : Option (Nat × Int)) (inv : InvG s r?) :
    InvG {s with blocked := sortB s.blocked} r? := by
  refine ⟨?_, inv.readyLt, ?_, inv.complLt, inv.readyOk, ?_, inv.complOk,
    inv.complTime, inv.timesLe, inv.timesInc, inv.timeNN, inv.pidOk, inv.qpos,
    inv.runLt, inv.runOk⟩
  · intro j hj
    have h2 := inv.uniq j hj
    show s.ready.count j + countB (sortB s.blocked) j + countC s.completed j
      + runExtra r? j = 1
    rw [countB_perm (sortB_perm s.blocked) j]
    exact h2
  · intro bi hbi
    exact inv.blockedLt bi ((sortB_perm s.blocked).mem_iff.mp hbi)
  · intro bi hbi
    exact inv.blockedOk bi ((sortB_perm s.blocked).mem_iff.mp hbi)

/-- Popping the head of the ready queue and dispatching it for one CPU
segment yields the mid-dispatch invariant; the segment is at least one unit
and at most the current CPU burst. -/
theorem dispatch_invG (s : Sim) (pid : Nat) (rest : List Nat) (inv : Inv s)
    (hr : s.ready = pid :: rest) :
    InvG {s with ready := rest} (some (pid, segOf {s with ready := rest} pid)) ∧
    1 ≤ segOf {s with ready := rest} pid ∧
    segOf {s with ready := rest} pid ≤ (getP s pid).bursts.headD 0 := by
  have hmem : pid ∈ s.ready := by
    rw [hr]
    exact List.mem_cons_self _ _
  have hpidlt : pid < s.procs.length := inv.readyLt pid hmem
  have hready : ProcReady (getP s pid) := inv.readyOk pid hmem
  have hhead : 1 ≤ (getP s pid).bursts.headD 0 := by
    rcases hl : (getP s pid).bursts with _ | ⟨b0, bs⟩
    · exact absurd hl hready.ne
    · have h2 := hready.pos b0 (by rw [hl]; exact List.mem_cons_self _ _)
      simpa using h2
  have hseg : 1 ≤ segOf {s with ready := rest} pid ∧
      segOf {s with ready := rest} pid ≤ (getP s pid).bursts.headD 0 := by
    unfold segOf
    by_cases hst : ({s with ready := rest} : Sim).strategy = Strategy.FCFS
    · rw [if_pos hst]
      exact ⟨hhead, le_refl _⟩
    · rw [if_neg hst]
      exact ⟨le_min hhead inv.qpos, min_le_left _ _⟩
  refine ⟨⟨?_, ?_, inv.blockedLt, inv.complLt, ?_, inv.blockedOk, inv.complOk,
    inv.complTime, inv.timesLe, inv.timesInc, inv.timeNN, inv.pidOk, inv.qpos,
    ?_, ?_⟩, hseg⟩
  · -- uniq
    intro j hj
    have h2 := inv.uniq j hj
    simp only [runExtra] at h2
    rw [hr] at h2
    have hc : List.count j (pid :: rest) = List.count j rest
        + (if j = pid then 1 else 0) := by
      by_cases hjp : j = pid
      · subst hjp
        simp [List.count_cons]
      · simp [List.count_cons, hjp]
    rw [hc] at h2
    show List.count j rest + countB s.blocked j + countC s.completed j
      + runExtra (some (pid, segOf {s with ready := rest} pid)) j = 1
    simp only [runExtra]
    by_cases hjp : j = pid
    · rw [if_pos hjp]
      rw [if_pos hjp] at h2
      omega
    · rw [if_neg hjp]
      rw [if_neg hjp] at h2
      omega
  · -- readyLt
    intro j hj
    exact inv.readyLt j (by rw [hr]; exact List.mem_cons_of_mem _ hj)
  · -- readyOk
    intro j hj
    exact inv.readyOk j (by rw [hr]; exact List.mem_cons_of_mem _ hj)
  · -- runLt
    intro r rem h
    cases h
    exact hpidlt
  · -- runOk
    intro r rem h
    cases h
    refine ⟨⟨hready.ne, hready.odd, hseg.2,
      (by show (0:Int) ≤ (getP s pid).bursts.headD 0; omega), ?_, hready.cpu,
      hready.io⟩, by omega⟩
    intro b hb
    exact hready.pos b (List.mem_of_mem_tail hb)

/-- The dispatch loop breaks exactly when both containers are empty. -/
theorem runStep_none_iff (s : Sim) :
    runStep s = none ↔ s.ready = [] ∧ s.blocked = [] := by
  unfold runStep
  rcases hr : s.ready with _ | ⟨p, r⟩
  · rcases hb : s.blocked with _ | ⟨b, bl⟩
    · simp
    · simp
  · simp

/-- One dispatch-loop iteration preserves the invariant, strictly decreases
the remaining-burst measure, strictly advances the clock, and (in the ready
branch) appends exactly one event whose kind is decided by whether the CPU
segment covered the whole remaining burst. -/
theorem runStep_inv (s s' : Sim) (inv : Inv s) (h : runStep s = some s') :
    Inv s' ∧
    MiP s'.procs ≤ MiP s.procs - 1 ∧
    s.time_elapsed < s'.time_elapsed ∧
    s'.strategy = s.strategy ∧
    s'.quantum = s.quantum ∧
    s'.procs.length = s.procs.length ∧
    (∀ j, (s'.procs.getD j default).total_cpu = (s.procs.getD j default).total_cpu ∧
          (s'.procs.getD j default).total_io = (s.procs.getD j default).total_io) ∧
    (∀ pid rest, s.ready = pid :: rest →
      ∃ e : Event, s'.events = s.events ++ [e] ∧ e.pid = pid ∧
        ((getP s pid).bursts.headD 0 ≤ segOf {s with ready := rest} pid →
          e.reason = Reason.completed ∨ e.reason = Reason.enterIo) ∧
        (segOf {s with ready := rest} pid < (getP s pid).bursts.headD 0 →
          e.reason = Reason.quantumExpired ∧ ∃ mid, s'.ready = mid ++ [pid])) := by
  obtain ⟨st, q, te, rd, blk, pr, cp, oc, ev⟩ := s
  rcases rd with _ | ⟨pid, rest⟩
  · -- idle or terminal branch
    rcases blk with _ | ⟨b0, bl⟩
    · have h2 : (none : Option Sim) = some s' := h
      exact Option.noConfusion h2
    · have inv1 : InvG {Sim.mk st q te [] (b0 :: bl) pr cp oc ev with
          blocked := sortB (b0 :: bl)} none :=
        Inv_sortBlocked (Sim.mk st q te [] (b0 :: bl) pr cp oc ev) none inv
      have hlen : (sortB (b0 :: bl)).length = (b0 :: bl).length :=
        (sortB_perm _).length_eq
      have hstep1 : 1 ≤ ((sortB (b0 :: bl)).headD default).remaining_io := by
        rcases hsl : sortB (b0 :: bl) with _ | ⟨c0, cl⟩
        · rw [hsl] at hlen
          simp at hlen
        · have hcm : c0 ∈ b0 :: bl :=
            (sortB_perm (b0 :: bl)).mem_iff.mp (by rw [hsl]; exact List.mem_cons_self _ _)
          have h3 := (inv.blockedOk c0 hcm).rpos
          simpa using h3
      obtain ⟨inv2, M2, St2, Q2, T2, C2, O2, E2, L2, G2, TT2, R2⟩ :=
        advanceBlocked_inv (Sim.mk st q te [] (sortB (b0 :: bl)) pr cp oc ev)
          ((sortB (b0 :: bl)).headD default).remaining_io none inv1
      have hstrict2 := advanceBlocked_MiP_strict
        (Sim.mk st q te [] (sortB (b0 :: bl)) pr cp oc ev)
        ((sortB (b0 :: bl)).headD default).remaining_io none inv1
        (by
          show sortB (b0 :: bl) ≠ []
          intro hnil
          rw [hnil] at hlen
          simp at hlen)
        (by omega)
        (by
          show ((sortB (sortB (b0 :: bl))).headD default).remaining_io ≤ _
          rw [sortB_idem])
      have hs' : s' = _ := (Option.some.inj h).symm
      subst hs'
      refine ⟨⟨?_, inv2.readyLt, inv2.blockedLt, inv2.complLt, inv2.readyOk,
        inv2.blockedOk, inv2.complOk, inv2.complTime, ?_, inv2.timesInc, ?_,
        inv2.pidOk, inv2.qpos, ?_, ?_⟩, ?_, ?_, ?_, ?_, ?_, ?_, ?_⟩
      · exact inv2.uniq
      · -- timesLe with the advanced clock
        intro e he
        have h2 := inv2.timesLe e he
        show e.1 ≤ (advanceBlocked (Sim.mk st q te [] (sortB (b0 :: bl)) pr cp oc ev)
            ((sortB (b0 :: bl)).headD default).remaining_io).time_elapsed
          + ((sortB (b0 :: bl)).headD default).remaining_io
        omega
      · -- timeNN
        have h2 := inv2.timeNN
        show (0:Int) ≤ (advanceBlocked (Sim.mk st q te [] (sortB (b0 :: bl)) pr cp oc ev)
            ((sortB (b0 :: bl)).headD default).remaining_io).time_elapsed
          + ((sortB (b0 :: bl)).headD default).remaining_io
        omega
      · intro r rem hcon
        exact Option.noConfusion hcon
      · intro r rem hcon
        exact Option.noConfusion hcon
      · -- MiP strictly decreases
        show MiP (advanceBlocked _ _).procs ≤ MiP pr - 1
        exact hstrict2
      · -- clock strictly advances
        show te < (advanceBlocked (Sim.mk st q te [] (sortB (b0 :: bl)) pr cp oc ev)
            ((sortB (b0 :: bl)).headD default).remaining_io).time_elapsed
          + ((sortB (b0 :: bl)).headD default).remaining_io
        rw [T2]
        show te < te + ((sortB (b0 :: bl)).headD default).remaining_io
        omega
      · exact St2
      · exact Q2
      · exact L2
      · exact TT2
      · intro pid rest hr'
        exact List.noConfusion hr'
  · -- ready branch: dispatch the head process
    obtain ⟨inv0, hseg1, hsegle⟩ :=
      dispatch_invG (Sim.mk st q te (pid :: rest) blk pr cp oc ev) pid rest inv rfl
    have hseg1' : 1 ≤ segOf (Sim.mk st q te rest blk pr cp oc ev) pid := hseg1
    have hsegle' : segOf (Sim.mk st q te rest blk pr cp oc ev) pid
        ≤ (pr.getD pid default).bursts.headD 0 := hsegle
    have inv0' : InvG (Sim.mk st q te rest blk pr cp oc ev)
        (some (pid, segOf (Sim.mk st q te rest blk pr cp oc ev) pid)) := inv0
    obtain ⟨inv1, T1, St1, Q1, C1, O1, E1, L1, G1, M1, TT1, R1⟩ :=
      subStepLoop_inv (Sim.mk st q te rest blk pr cp oc ev) pid
        (segOf (Sim.mk st q te rest blk pr cp oc ev) pid) inv0' (by omega)
    have hstrict : ∀ e ∈ (subStepLoop (Sim.mk st q te rest blk pr cp oc ev) pid
        (segOf (Sim.mk st q te rest blk pr cp oc ev) pid)).completed,
        e.1 < (subStepLoop (Sim.mk st q te rest blk pr cp oc ev) pid
          (segOf (Sim.mk st q te rest blk pr cp oc ev) pid)).time_elapsed := by
      intro e he
      rw [C1] at he
      have h2 := inv.timesLe e he
      rw [T1]
      show e.1 < te + segOf (Sim.mk st q te rest blk pr cp oc ev) pid
      have h3 : e.1 ≤ te := h2
      omega
    obtain ⟨invA, MA, TA, StA, QA, LA, TTA, eA, hevA, hpidA, htimeA, hzA, hnzA⟩ :=
      afterSegment_inv (subStepLoop (Sim.mk st q te rest blk pr cp oc ev) pid
        (segOf (Sim.mk st q te rest blk pr cp oc ev) pid)) pid inv1 hstrict
    have hs' : s' = afterSegment (subStepLoop (Sim.mk st q te rest blk pr cp oc ev) pid
        (segOf (Sim.mk st q te rest blk pr cp oc ev) pid)) pid :=
      (Option.some.inj h).symm
    subst hs'
    have hheadmid : (getP (subStepLoop (Sim.mk st q te rest blk pr cp oc ev) pid
        (segOf (Sim.mk st q te rest blk pr cp oc ev) pid)) pid).bursts.headD 0
        = (pr.getD pid default).bursts.headD 0
          - segOf (Sim.mk st q te rest blk pr cp oc ev) pid := by
      rw [G1]
      have hne : (pr.getD pid default).bursts ≠ [] :=
        (inv.readyOk pid (List.mem_cons_self _ _)).ne
      obtain ⟨c0, cs, hl⟩ : ∃ c0 cs, (pr.getD pid default).bursts = c0 :: cs := by
        rcases h2 : (pr.getD pid default).bursts with _ | ⟨x, xs⟩
        · exact absurd h2 hne
        · exact ⟨x, xs, rfl⟩
      show (decFront (getP (Sim.mk st q te rest blk pr cp oc ev) pid).bursts
          (segOf (Sim.mk st q te rest blk pr cp oc ev) pid)).headD 0
        = (pr.getD pid default).bursts.headD 0
          - segOf (Sim.mk st q te rest blk pr cp oc ev) pid
      have hl' : (getP (Sim.mk st q te rest blk pr cp oc ev) pid).bursts
          = c0 :: cs := hl
      rw [hl', hl]
      rfl
    refine ⟨invA, ?_, ?_, ?_, ?_, ?_, ?_, ?_⟩
    · -- MiP
      have hM0 : MiP ((Sim.mk st q te rest blk pr cp oc ev) : Sim).procs
          = MiP pr := rfl
      rw [hM0] at M1
      show MiP _ ≤ MiP pr - 1
      omega
    · -- clock
      rw [TA, T1]
      show te < te + segOf (Sim.mk st q te rest blk pr cp oc ev) pid
      omega
    · rw [StA, St1]
    · rw [QA, Q1]
    · rw [LA, L1]
    · -- totals
      intro j
      obtain ⟨ha, hb2⟩ := TTA j
      obtain ⟨hc, hd⟩ := TT1 j
      exact ⟨ha.trans hc, hb2.trans hd⟩
    · -- the appended event
      intro pid' rest' hr'
      obtain ⟨hp, hrst⟩ : pid = pid' ∧ rest = rest' :=
        ⟨(List.cons.inj hr').1, (List.cons.inj hr').2⟩
      subst hp
      subst hrst
      refine ⟨eA, ?_, hpidA, ?_, ?_⟩
      · rw [hevA, E1]
      · -- the segment covered the whole burst: completed or entered I/O
        intro hle
        have hz : (getP (subStepLoop (Sim.mk st q te rest blk pr cp oc ev) pid
            (segOf (Sim.mk st q te rest blk pr cp oc ev) pid)) pid).bursts.headD 0
            = 0 := by
          rw [hheadmid]
          have hle' : (pr.getD pid default).bursts.headD 0
              ≤ segOf (Sim.mk st q te rest blk pr cp oc ev) pid := hle
          have hge' : segOf (Sim.mk st q te rest blk pr cp oc ev) pid
              ≤ (pr.getD pid default).bursts.headD 0 := hsegle'
          omega
        exact (hzA hz).2
      · -- the burst is still positive: quantum expired, re-enqueued at back
        intro hlt
        have hnz : ¬ (getP (subStepLoop (Sim.mk st q te rest blk pr cp oc ev) pid
            (segOf (Sim.mk st q te rest blk pr cp oc ev) pid)) pid).bursts.headD 0
            = 0 := by
          rw [hheadmid]
          have hlt' : segOf (Sim.mk st q te rest blk pr cp oc ev) pid
              < (pr.getD pid default).bursts.headD 0 := hlt
          omega
        obtain ⟨hqe, hrd, _⟩ := hnzA hnz
        refine ⟨hqe, ?_⟩
        obtain ⟨ext, hext⟩ := R1
        refine ⟨rest ++ ext, ?_⟩
        rw [hrd, hext]


/-! ### Iterating the dispatch loop -/

/-- A terminal state absorbs any remaining fuel. -/
theorem runFuel_terminal (k : Nat) (s : Sim) (h : runStep s = none) :
    runFuel k s = s := by
  cases k with
  | zero => rfl
  | succ k =>
    rw [runFuel, h]

/-- Splitting the fuel of `runFuel`. -/
theorem runFuel_add (m k : Nat) (s : Sim) :
    runFuel (m + k) s = runFuel k (runFuel m s) := by
  induction m generalizing s with
  | zero =>
    rw [Nat.zero_add]
    rfl
  | succ m ih =>
    have hm : m + 1 + k = (m + k) + 1 := by omega
    rw [hm]
    rcases hstep : runStep s with _ | s'
    · rw [runFuel, hstep, runFuel, hstep, runFuel_terminal k s hstep]
    · rw [runFuel, hstep, runFuel, hstep]
      exact ih s'

/-- Any number of dispatch-loop iterations preserves the invariant; the
measure never grows, the clock never rewinds, and strategy, quantum, arena
size and the per-process totals are all preserved. -/
theorem runFuel_inv (n : Nat) (s : Sim) (inv : Inv s) :
    Inv (runFuel n s) ∧
    MiP (runFuel n s).procs ≤ MiP s.procs ∧
    s.time_elapsed ≤ (runFuel n s).time_elapsed ∧
    (runFuel n s).strategy = s.strategy ∧
    (runFuel n s).quantum = s.quantum ∧
    (runFuel n s).procs.length = s.procs.length ∧
    (∀ j, ((runFuel n s).procs.getD j default).total_cpu
            = (s.procs.getD j default).total_cpu ∧
          ((runFuel n s).procs.getD j default).total_io
            = (s.procs.getD j default).total_io) := by
  induction n generalizing s with
  | zero =>
    exact ⟨inv, le_refl _, le_refl _, rfl, rfl, rfl, fun j => ⟨rfl, rfl⟩⟩
  | succ n ih =>
    rcases hstep : runStep s with _ | s'
    · rw [runFuel, hstep]
      exact ⟨inv, le_refl _, le_refl _, rfl, rfl, rfl, fun j => ⟨rfl, rfl⟩⟩
    · simp only [runFuel, hstep]
      obtain ⟨inv', M', T', St', Q', L', TT', _⟩ := runStep_inv s s' inv hstep
      obtain ⟨I, M, T, St, Q, L, TT⟩ := ih s' inv'
      refine ⟨I, by omega, by omega, St.trans St', Q.trans Q', L.trans L', ?_⟩
      intro j
      obtain ⟨ha, hb⟩ := TT j
      obtain ⟨hc, hd⟩ := TT' j
      exact ⟨ha.trans hc, hb.trans hd⟩

/-! ### The initial state -/

theorem count_range (n j : Nat) : (List.range n).count j = if j < n then 1 else 0 := by
  by_cases h : j < n
  · rw [if_pos h]
    exact List.count_eq_one_of_mem (List.nodup_range n) (List.mem_range.mpr h)
  · rw [if_neg h]
    exact List.count_eq_zero.mpr (fun hc => h (List.mem_range.mp hc))

theorem initProcs_length (i : Nat) (ls : List (List Int)) :
    (initProcs i ls).length = ls.length := by
  induction ls generalizing i with
  | nil => rfl
  | cons l ls ih =>
    simp only [initProcs, List.length_cons]
    rw [ih]

theorem initProcs_getD (i j : Nat) (ls : List (List Int)) (h : j < ls.length) :
    (initProcs i ls).getD j default = initProc (i + j) (ls.getD j []) := by
  induction ls generalizing i j with
  | nil => simp at h
  | cons l ls ih =>
    cases j with
    | zero => rfl
    | succ m =>
      simp only [initProcs, List.getD_cons_succ]
      rw [ih (i + 1) m (by simpa using h)]
      have : i + 1 + m = i + (m + 1) := by omega
      rw [this]

/-- The loader's output state satisfies the global invariant. -/
theorem initSim_inv (strat : Strategy) (q : Int) (lines : List (List Int))
    (hw : WFInput lines) (hq : 1 ≤ q) : Inv (initSim strat q lines) := by
  have hlen : (initProcs 0 lines).length = lines.length := initProcs_length 0 lines
  have hget : ∀ j, j < lines.length →
      (initProcs 0 lines).getD j default = initProc j (lines.getD j []) := by
    intro j hj
    rw [initProcs_getD 0 j lines hj]
    have : 0 + j = j := by omega
    rw [this]
  have hmem : ∀ j, j < lines.length → lines.getD j [] ∈ lines := by
    intro j hj
    rw [List.getD_eq_getElem lines [] hj]
    exact List.getElem_mem hj
  refine ⟨?_, ?_, ?_, ?_, ?_, ?_, ?_, ?_, ?_, ?_, ?_, ?_, hq, ?_, ?_⟩
  · -- uniq
    intro j hj
    show (List.range lines.length).count j + countB [] j + countC [] j
      + runExtra none j = 1
    rw [count_range]
    have hj' : j < lines.length := by
      rw [← hlen]
      exact hj
    rw [if_pos hj']
    rfl
  · -- readyLt
    intro j hj
    have : j < lines.length := List.mem_range.mp hj
    show j < (initProcs 0 lines).length
    omega
  · intro bi hbi
    exact absurd hbi (List.not_mem_nil bi)
  · intro e he
    exact absurd he (List.not_mem_nil e)
  · -- readyOk
    intro j hj
    have hj' : j < lines.length := List.mem_range.mp hj
    obtain ⟨hne, hodd, hpos⟩ := hw (lines.getD j []) (hmem j hj')
    show ProcReady ((initProcs 0 lines).getD j default)
    rw [hget j hj']
    exact ⟨hne, hodd, hpos,
      by show (0:Int) + sumEven (lines.getD j []) = sumEven (lines.getD j []); omega,
      by show (0:Int) + sumOdd (lines.getD j []) = sumOdd (lines.getD j []); omega⟩
  · intro bi hbi
    exact absurd hbi (List.not_mem_nil bi)
  · intro e he
    exact absurd he (List.not_mem_nil e)
  · intro e he
    exact absurd he (List.not_mem_nil e)
  · intro e he
    exact absurd he (List.not_mem_nil e)
  · exact List.Pairwise.nil
  · exact le_refl 0
  · -- pidOk
    intro j hj
    have hj' : j < lines.length := by
      rw [← hlen]
      exact hj
    show ((initProcs 0 lines).getD j default).pid = j
    rw [hget j hj']
    rfl
  · intro r rem h
    exact Option.noConfusion h
  · intro r rem h
    exact Option.noConfusion h


/-! ### Claim C3: termination of the dispatch loop -/

/-- Every invariant state reaches the terminal state in finitely many
dispatch-loop iterations (strong induction on the remaining-burst
measure). -/
theorem Inv_reaches_terminal (m : Nat) : ∀ (s : Sim), Inv s →
    (MiP s.procs).toNat ≤ m → ∃ n, runStep (runFuel n s) = none := by
  induction m with
  | zero =>
    intro s inv hb
    rcases hstep : runStep s with _ | s'
    · exact ⟨0, hstep⟩
    · exfalso
      obtain ⟨inv', M', _⟩ := runStep_inv s s' inv hstep
      have h0 := InvG_MiP_nonneg s' none inv'
      have h1 := InvG_MiP_nonneg s none inv
      omega
  | succ m ih =>
    intro s inv hb
    rcases hstep : runStep s with _ | s'
    · exact ⟨0, hstep⟩
    · obtain ⟨inv', M', _⟩ := runStep_inv s s' inv hstep
      have h0 := InvG_MiP_nonneg s' none inv'
      obtain ⟨n, hn⟩ := ih s' inv' (by omega)
      refine ⟨n + 1, ?_⟩
      rw [runFuel, hstep]
      exact hn

/-- C3: for every well-formed input and either discipline with a positive
quantum, the dispatch loop terminates: after finitely many iterations both
the ready queue and the blocked deque are empty and the loop breaks. -/
theorem C3_dispatch_loop_terminates (strat : Strategy) (q : Int)
    (lines : List (List Int)) (hw : WFInput lines) (hq : 1 ≤ q) :
    ∃ n, (runFuel n (initSim strat q lines)).ready = [] ∧
         (runFuel n (initSim strat q lines)).blocked = [] ∧
         runStep (runFuel n (initSim strat q lines)) = none := by
  obtain ⟨n, hn⟩ := Inv_reaches_terminal (MiP (initSim strat q lines).procs).toNat
    (initSim strat q lines) (initSim_inv strat q lines hw hq) (le_refl _)
  obtain ⟨h1, h2⟩ := (runStep_none_iff _).mp hn
  exact ⟨n, h1, h2, hn⟩

theorem C3_witness :
    ∃ n, (runFuel n (initSim Strategy.FCFS 2 [[2, 3, 2], [5]])).ready = [] ∧
         (runFuel n (initSim Strategy.FCFS 2 [[2, 3, 2], [5]])).blocked = [] ∧
         runStep (runFuel n (initSim Strategy.FCFS 2 [[2, 3, 2], [5]])) = none :=
  C3_dispatch_loop_terminates Strategy.FCFS 2 [[2, 3, 2], [5]] (by unfold WFInput; decide) (by decide)

/-! ### Claim C4: conservation of executed CPU and I/O -/

/-- C4: at any terminal state of a run from a well-formed input, every
process has executed exactly its original CPU total (the even positions of
its line) and its original I/O total (the odd positions). -/
theorem C4_conservation (strat : Strategy) (q : Int) (lines : List (List Int))
    (hw : WFInput lines) (hq : 1 ≤ q) (n : Nat)
    (hterm : runStep (runFuel n (initSim strat q lines)) = none) :
    ∀ j, j < lines.length →
      (getP (runFuel n (initSim strat q lines)) j).executed_cpu
        = (getP (runFuel n (initSim strat q lines)) j).total_cpu ∧
      (getP (runFuel n (initSim strat q lines)) j).executed_io
        = (getP (runFuel n (initSim strat q lines)) j).total_io ∧
      (getP (runFuel n (initSim strat q lines)) j).total_cpu
        = sumEven (lines.getD j []) ∧
      (getP (runFuel n (initSim strat q lines)) j).total_io
        = sumOdd (lines.getD j []) := by
  intro j hj
  obtain ⟨inv, _, _, _, _, L, TT⟩ :=
    runFuel_inv n (initSim strat q lines) (initSim_inv strat q lines hw hq)
  obtain ⟨hrd, hbl⟩ := (runStep_none_iff _).mp hterm
  have hj' : j < (runFuel n (initSim strat q lines)).procs.length := by
    rw [L]
    show j < (initProcs 0 lines).length
    rw [initProcs_length]
    exact hj
  have h2 := inv.uniq j hj'
  rw [hrd, hbl] at h2
  simp only [runExtra, List.count_nil] at h2
  have hb0 : countB [] j = 0 := rfl
  have hc1 : countC (runFuel n (initSim strat q lines)).completed j = 1 := by
    rw [hb0] at h2
    omega
  obtain ⟨e, he, hej⟩ :=
    (countC_pos_iff (runFuel n (initSim strat q lines)).completed j).mp (by omega)
  have hdone := inv.complOk e he
  rw [hej] at hdone
  obtain ⟨hcpu2, hio2⟩ := TT j
  have hinit_cpu : ((initSim strat q lines).procs.getD j default).total_cpu
      = sumEven (lines.getD j []) := by
    show ((initProcs 0 lines).getD j default).total_cpu = sumEven (lines.getD j [])
    rw [initProcs_getD 0 j lines hj]
    rfl
  have hinit_io : ((initSim strat q lines).procs.getD j default).total_io
      = sumOdd (lines.getD j []) := by
    show ((initProcs 0 lines).getD j default).total_io = sumOdd (lines.getD j [])
    rw [initProcs_getD 0 j lines hj]
    rfl
  exact ⟨hdone.cpu, hdone.io, hcpu2.trans hinit_cpu, hio2.trans hinit_io⟩

theorem C4_witness :
    (getP (runFuel 100 (initSim Strategy.FCFS 2 [[2, 3, 2], [5]])) 0).executed_cpu
      = (getP (runFuel 100 (initSim Strategy.FCFS 2 [[2, 3, 2], [5]])) 0).total_cpu ∧
    (getP (runFuel 100 (initSim Strategy.FCFS 2 [[2, 3, 2], [5]])) 0).executed_io
      = (getP (runFuel 100 (initSim Strategy.FCFS 2 [[2, 3, 2], [5]])) 0).total_io ∧
    (getP (runFuel 100 (initSim Strategy.FCFS 2 [[2, 3, 2], [5]])) 0).total_cpu
      = sumEven ([[2, 3, 2], [5]].getD 0 []) ∧
    (getP (runFuel 100 (initSim Strategy.FCFS 2 [[2, 3, 2], [5]])) 0).total_io
      = sumOdd ([[2, 3, 2], [5]].getD 0 []) :=
  C4_conservation Strategy.FCFS 2 [[2, 3, 2], [5]] (by unfold WFInput; decide) (by decide) 100
    (by
      rw [runFuel_eq_of_isSome 100 100 (initSim Strategy.FCFS 2 [[2, 3, 2], [5]])
        (by rfl)]
      exact runStepF_sound 100 _ none (by rfl))
    0 (by decide)

/-! ### Claim C5: unique residence -/

/-- C5: at every reachable dispatch-loop boundary, each process occurs
exactly once across the ready queue, the blocked deque and the completion
records; in particular it is never in two containers at once nor twice in
one. -/
theorem C5_unique_residence (strat : Strategy) (q : Int) (lines : List (List Int))
    (hw : WFInput lines) (hq : 1 ≤ q) (n : Nat) :
    ∀ j, j < lines.length →
      (runFuel n (initSim strat q lines)).ready.count j
      + countB (runFuel n (initSim strat q lines)).blocked j
      + countC (runFuel n (initSim strat q lines)).completed j = 1 := by
  intro j hj
  obtain ⟨inv, _, _, _, _, L, _⟩ :=
    runFuel_inv n (initSim strat q lines) (initSim_inv strat q lines hw hq)
  have hj' : j < (runFuel n (initSim strat q lines)).procs.length := by
    rw [L]
    show j < (initProcs 0 lines).length
    rw [initProcs_length]
    exact hj
  have h2 := inv.uniq j hj'
  simp only [runExtra] at h2
  omega

theorem C5_witness :
    (runFuel 3 (initSim Strategy.RR 2 [[4], [4]])).ready.count 0
    + countB (runFuel 3 (initSim Strategy.RR 2 [[4], [4]])).blocked 0
    + countC (runFuel 3 (initSim Strategy.RR 2 [[4], [4]])).completed 0 = 1 :=
  C5_unique_residence Strategy.RR 2 [[4], [4]] (by unfold WFInput; decide) (by decide) 3 0 (by decide)

/-! ### Claim C7: negative advance is silently tolerated (code behaviour) -/

/-- C7 (amended): asking `advance_blocked` to advance by a non-positive
`dt` is NOT a fail-fast contract violation in this code: the loop guard
`t > 0` simply never fires and the call returns normally with the state
unchanged. -/
theorem C7_advanceBlocked_nonpos_noop (s : Sim) (t : Int) (ht : t ≤ 0) :
    advanceBlocked s t = s := by
  rw [advanceBlocked, dif_neg]
  rintro ⟨h1, _⟩
  omega

theorem C7_witness : advanceBlocked cex7 (-3) = cex7 :=
  C7_advanceBlocked_nonpos_noop cex7 (-3) (by decide)

/-- C7 counterexample to the spec sentence: on a concrete state with a
non-empty blocked deque, advancing by `dt = -1` returns normally with the
state unchanged — no assertion, panic or any other failure path exists in
`advance_blocked`. -/
theorem C7_counterexample : advanceBlocked cex7 (-1) = cex7 ∧ cex7.blocked ≠ [] :=
  ⟨advanceBlockedF_sound 1 cex7 (-1) cex7 (by rfl), List.cons_ne_nil _ _⟩

/-! ### Claim C9: monotonic clock -/

/-- C9: along any run from a well-formed input the simulated clock never
decreases, and every non-terminal dispatch-loop iteration strictly
increases it (in this code even the idle jump is of positive duration,
because blocked entries always hold at least one unit of remaining I/O). -/
theorem C9_monotonic_clock (strat : Strategy) (q : Int) (lines : List (List Int))
    (hw : WFInput lines) (hq : 1 ≤ q) :
    (∀ m k : Nat, (runFuel m (initSim strat q lines)).time_elapsed
       ≤ (runFuel (m + k) (initSim strat q lines)).time_elapsed) ∧
    (∀ m : Nat, ∀ s' : Sim, runStep (runFuel m (initSim strat q lines)) = some s' →
       (runFuel m (initSim strat q lines)).time_elapsed < s'.time_elapsed) := by
  have hinv : ∀ m, Inv (runFuel m (initSim strat q lines)) := fun m =>
    (runFuel_inv m (initSim strat q lines) (initSim_inv strat q lines hw hq)).1
  constructor
  · intro m k
    rw [runFuel_add]
    exact (runFuel_inv k (runFuel m (initSim strat q lines)) (hinv m)).2.2.1
  · intro m s' h
    exact (runStep_inv (runFuel m (initSim strat q lines)) s' (hinv m) h).2.2.1

theorem C9_witness :
    (runFuel 0 (initSim Strategy.FCFS 2 [[3, 2, 4]])).time_elapsed
      ≤ (runFuel (0 + 1) (initSim Strategy.FCFS 2 [[3, 2, 4]])).time_elapsed :=
  (C9_monotonic_clock Strategy.FCFS 2 [[3, 2, 4]] (by unfold WFInput; decide) (by decide)).1 0 1

/-! ### Claim C10: the round-robin quantum boundary -/

/-- C10: under round-robin, a dispatched process whose remaining CPU burst
is at most the quantum finishes that burst inside the segment — the logged
event is completion or entering I/O, never quantum expiry; a quantum-expired
event (with re-enqueue at the back of the ready queue) happens exactly when
the remaining burst strictly exceeds the quantum.  In particular a burst
ending exactly at the quantum boundary never logs quantum expiry. -/
theorem C10_rr_quantum_boundary (s s' : Sim) (pid : Nat) (rest : List Nat)
    (inv : Inv s) (hst : s.strategy = Strategy.RR) (hr : s.ready = pid :: rest)
    (h : runStep s = some s') :
    ∃ e : Event, s'.events = s.events ++ [e] ∧ e.pid = pid ∧
      ((getP s pid).bursts.headD 0 ≤ s.quantum →
        e.reason = Reason.completed ∨ e.reason = Reason.enterIo) ∧
      (s.quantum < (getP s pid).bursts.headD 0 →
        e.reason = Reason.quantumExpired ∧ ∃ mid, s'.ready = mid ++ [pid]) := by
  obtain ⟨_, _, _, _, _, _, _, hev⟩ := runStep_inv s s' inv h
  obtain ⟨e, he1, he2, he3, he4⟩ := hev pid rest hr
  have hnf : ¬ (({s with ready := rest} : Sim).strategy = Strategy.FCFS) := by
    intro hcon
    have h2 : s.strategy = Strategy.FCFS := hcon
    rw [hst] at h2
    exact Strategy.noConfusion h2
  have hseg : segOf {s with ready := rest} pid
      = min ((getP s pid).bursts.headD 0) s.quantum := by
    unfold segOf
    rw [if_neg hnf]
    rfl
  refine ⟨e, he1, he2, ?_, ?_⟩
  · intro hle
    apply he3
    rw [hseg]
    exact le_min (le_refl _) hle
  · intro hlt
    apply he4
    rw [hseg]
    have h3 := min_le_right ((getP s pid).bursts.headD 0) s.quantum
    omega

theorem C10_witness :
    ∃ e : Event, scenC1.events = scenC.events ++ [e] ∧ e.pid = 0 ∧
      ((getP scenC 0).bursts.headD 0 ≤ scenC.quantum →
        e.reason = Reason.completed ∨ e.reason = Reason.enterIo) ∧
      (scenC.quantum < (getP scenC 0).bursts.headD 0 →
        e.reason = Reason.quantumExpired ∧ ∃ mid, scenC1.ready = mid ++ [0]) :=
  C10_rr_quantum_boundary scenC scenC1 0 [1]
    (initSim_inv Strategy.RR 2 [[4], [4]] (by unfold WFInput; decide) (by decide)) rfl (by rfl)
    (runStepF_sound 100 scenC (some scenC1) (by rfl))


/-! ### Claim C8: the quantum is dead configuration under FCFS -/

theorem abIter_setQ (s : Sim) (t q : Int) :
    abIter (setQ s q) t = ((setQ (abIter s t).1 q), (abIter s t).2) := rfl

theorem subStepState_setQ (s : Sim) (pid : Nat) (step q : Int) :
    subStepState (setQ s q) pid step = setQ (subStepState s pid step) q := rfl

theorem advanceBlocked_setQ (s : Sim) (t : Int) (q : Int) :
    advanceBlocked (setQ s q) t = setQ (advanceBlocked s t) q := by
  induction s, t using advanceBlocked.induct with
  | case1 s t h ih =>
    have h' : 0 < t ∧ (setQ s q).blocked ≠ [] := h
    rw [advanceBlocked, dif_pos h']
    conv_rhs => rw [advanceBlocked, dif_pos h]
    rw [abIter_setQ]
    exact ih
  | case2 s t h =>
    have h' : ¬ (0 < t ∧ (setQ s q).blocked ≠ []) := h
    rw [advanceBlocked, dif_neg h']
    conv_rhs => rw [advanceBlocked, dif_neg h]

theorem subStepLoop_setQ (s : Sim) (pid : Nat) (remaining q : Int) :
    subStepLoop (setQ s q) pid remaining = setQ (subStepLoop s pid remaining) q := by
  induction s, pid, remaining using subStepLoop.induct with
  | case1 s pid remaining h step ih =>
    have hstepeq : step = stepOf s.blocked remaining := rfl
    rw [subStepLoop, dif_pos h]
    conv_rhs => rw [subStepLoop, dif_pos h]
    show subStepLoop (advanceBlocked (subStepState (setQ s q) pid
        (stepOf s.blocked remaining)) (stepOf s.blocked remaining)) pid
        (remaining - stepOf s.blocked remaining)
      = setQ (subStepLoop (advanceBlocked (subStepState s pid
          (stepOf s.blocked remaining)) (stepOf s.blocked remaining)) pid
          (remaining - stepOf s.blocked remaining)) q
    rw [subStepState_setQ, advanceBlocked_setQ, ← hstepeq]
    exact ih
  | case2 s pid remaining h =>
    rw [subStepLoop, dif_neg h]
    conv_rhs => rw [subStepLoop, dif_neg h]

theorem segOf_setQ_fcfs (s : Sim) (pid : Nat) (q : Int)
    (hst : s.strategy = Strategy.FCFS) :
    segOf (setQ s q) pid = segOf s pid := by
  unfold segOf
  have hst' : (setQ s q).strategy = Strategy.FCFS := hst
  rw [if_pos hst', if_pos hst]
  rfl

theorem moveToBlocked_setQ (s : Sim) (pid : Nat) (q : Int) :
    moveToBlocked (setQ s q) pid = setQ (moveToBlocked s pid) q := by
  obtain ⟨st, q0, te, rd, bl, pr, cp, oc, ev⟩ := s
  show moveToBlocked (Sim.mk st q te rd bl pr cp oc ev) pid
    = setQ (moveToBlocked (Sim.mk st q0 te rd bl pr cp oc ev) pid) q
  have hgpA : getP (Sim.mk st q te rd bl pr cp oc ev) pid
      = getP (Sim.mk st q0 te rd bl pr cp oc ev) pid := rfl
  have hgpB : getP (Sim.mk st q te rd bl
        (updAt pr pid (fun p => {p with bursts := p.bursts.tail})) cp oc ev) pid
      = getP (Sim.mk st q0 te rd bl
        (updAt pr pid (fun p => {p with bursts := p.bursts.tail})) cp oc ev) pid := rfl
  simp only [moveToBlocked]
  rw [hgpA]
  by_cases h1 : (getP (Sim.mk st q0 te rd bl pr cp oc ev) pid).bursts ≠ [] ∧
      (getP (Sim.mk st q0 te rd bl pr cp oc ev) pid).bursts.headD 1 = 0
  · rw [if_pos h1, if_pos h1, hgpB]
    by_cases h2 : (getP (Sim.mk st q0 te rd bl
        (updAt pr pid (fun p => {p with bursts := p.bursts.tail})) cp oc ev)
        pid).bursts ≠ []
    · rw [if_pos h2, if_pos h2]
      rfl
    · rw [if_neg h2, if_neg h2]
      rfl
  · rw [if_neg h1, if_neg h1, hgpA]
    by_cases h2 : (getP (Sim.mk st q0 te rd bl pr cp oc ev) pid).bursts ≠ []
    · rw [if_pos h2, if_pos h2]
      rfl
    · rw [if_neg h2, if_neg h2]
      rfl

theorem afterSegment_setQ (s1 : Sim) (pid : Nat) (q : Int) :
    afterSegment (setQ s1 q) pid = setQ (afterSegment s1 pid) q := by
  obtain ⟨st, q0, te, rd, bl, pr, cp, oc, ev⟩ := s1
  show afterSegment (Sim.mk st q te rd bl pr cp oc ev) pid
    = setQ (afterSegment (Sim.mk st q0 te rd bl pr cp oc ev) pid) q
  have hgpA : getP (Sim.mk st q te rd bl pr cp oc ev) pid
      = getP (Sim.mk st q0 te rd bl pr cp oc ev) pid := rfl
  have hgpB : getP (Sim.mk st q te rd bl
        (updAt pr pid (fun p => {p with bursts := p.bursts.tail})) cp oc ev) pid
      = getP (Sim.mk st q0 te rd bl
        (updAt pr pid (fun p => {p with bursts := p.bursts.tail})) cp oc ev) pid := rfl
  simp only [afterSegment]
  rw [hgpA]
  by_cases h1 : (getP (Sim.mk st q0 te rd bl pr cp oc ev) pid).bursts.headD 0 = 0
  · rw [if_pos h1, if_pos h1, hgpB]
    by_cases h2 : (getP (Sim.mk st q0 te rd bl
        (updAt pr pid (fun p => {p with bursts := p.bursts.tail})) cp oc ev)
        pid).bursts.isEmpty
    · rw [if_pos h2, if_pos h2]
      rfl
    · rw [if_neg h2, if_neg h2]
      exact moveToBlocked_setQ (Sim.mk st q0 te rd bl
        (updAt pr pid (fun p => {p with bursts := p.bursts.tail})) cp oc
        (ev ++ [⟨pid,
          (getP (Sim.mk st q0 te rd bl
            (updAt pr pid (fun p => {p with bursts := p.bursts.tail})) cp oc ev)
            pid).executed_cpu,
          (getP (Sim.mk st q0 te rd bl
            (updAt pr pid (fun p => {p with bursts := p.bursts.tail})) cp oc ev)
            pid).executed_io,
          te, Reason.enterIo⟩])) pid q
  · rw [if_neg h1, if_neg h1]
    rfl


theorem runStep_setQ (s : Sim) (q : Int) (hst : s.strategy = Strategy.FCFS) :
    runStep (setQ s q) = Option.map (fun x => setQ x q) (runStep s) := by
  obtain ⟨st, q0, te, rd, blk, pr, cp, oc, ev⟩ := s
  rcases rd with _ | ⟨pid, rest⟩
  · rcases blk with _ | ⟨b0, bl⟩
    · rfl
    · show runStep (Sim.mk st q te [] (b0 :: bl) pr cp oc ev)
        = Option.map (fun x => setQ x q)
            (runStep (Sim.mk st q0 te [] (b0 :: bl) pr cp oc ev))
      simp only [runStep]
      have h3 : advanceBlocked (Sim.mk st q te [] (sortB (b0 :: bl)) pr cp oc ev)
          ((sortB (b0 :: bl)).headD default).remaining_io
          = setQ (advanceBlocked (Sim.mk st q0 te [] (sortB (b0 :: bl)) pr cp oc ev)
              ((sortB (b0 :: bl)).headD default).remaining_io) q :=
        advanceBlocked_setQ (Sim.mk st q0 te [] (sortB (b0 :: bl)) pr cp oc ev)
          ((sortB (b0 :: bl)).headD default).remaining_io q
      rw [h3]
      rfl
  · show runStep (Sim.mk st q te (pid :: rest) blk pr cp oc ev)
      = Option.map (fun x => setQ x q)
          (runStep (Sim.mk st q0 te (pid :: rest) blk pr cp oc ev))
    simp only [runStep]
    have hsq : segOf (Sim.mk st q te rest blk pr cp oc ev) pid
        = segOf (Sim.mk st q0 te rest blk pr cp oc ev) pid :=
      segOf_setQ_fcfs (Sim.mk st q0 te rest blk pr cp oc ev) pid q hst
    rw [hsq]
    have hsl : subStepLoop (Sim.mk st q te rest blk pr cp oc ev) pid
        (segOf (Sim.mk st q0 te rest blk pr cp oc ev) pid)
        = setQ (subStepLoop (Sim.mk st q0 te rest blk pr cp oc ev) pid
            (segOf (Sim.mk st q0 te rest blk pr cp oc ev) pid)) q :=
      subStepLoop_setQ (Sim.mk st q0 te rest blk pr cp oc ev) pid
        (segOf (Sim.mk st q0 te rest blk pr cp oc ev) pid) q
    rw [hsl]
    have haf : afterSegment (setQ (subStepLoop (Sim.mk st q0 te rest blk pr cp oc ev)
        pid (segOf (Sim.mk st q0 te rest blk pr cp oc ev) pid)) q) pid
        = setQ (afterSegment (subStepLoop (Sim.mk st q0 te rest blk pr cp oc ev) pid
            (segOf (Sim.mk st q0 te rest blk pr cp oc ev) pid)) pid) q :=
      afterSegment_setQ (subStepLoop (Sim.mk st q0 te rest blk pr cp oc ev) pid
        (segOf (Sim.mk st q0 te rest blk pr cp oc ev) pid)) pid q
    rw [haf]
    rfl

theorem runFuel_setQ (n : Nat) (s : Sim) (q : Int) (inv : Inv s)
    (hst : s.strategy = Strategy.FCFS) :
    runFuel n (setQ s q) = setQ (runFuel n s) q := by
  induction n generalizing s with
  | zero => rfl
  | succ n ih =>
    rcases hstep : runStep s with _ | s'
    · have h2 : runStep (setQ s q) = none := by
        rw [runStep_setQ s q hst, hstep]
        rfl
      rw [runFuel_terminal (n + 1) (setQ s q) h2, runFuel_terminal (n + 1) s hstep]
    · have h2 : runStep (setQ s q) = some (setQ s' q) := by
        rw [runStep_setQ s q hst, hstep]
        rfl
      simp only [runFuel, h2, hstep]
      obtain ⟨inv', _, _, St', _⟩ := runStep_inv s s' inv hstep
      exact ih s' inv' (St'.trans hst)

/-- C8: under FCFS the quantum is ignored — for every well-formed input,
runs that differ only in their (positive) quantum value go through
identical states up to the stored quantum: same event sequence (with the
same clock stamps inside each event), same clock, same final statistics
report. -/
theorem C8_fcfs_ignores_quantum (lines : List (List Int)) (hw : WFInput lines)
    (q1 q2 : Int) (hq1 : 1 ≤ q1) (hq2 : 1 ≤ q2) (n : Nat) :
    (runFuel n (initSim Strategy.FCFS q2 lines)).events
      = (runFuel n (initSim Strategy.FCFS q1 lines)).events ∧
    (runFuel n (initSim Strategy.FCFS q2 lines)).time_elapsed
      = (runFuel n (initSim Strategy.FCFS q1 lines)).time_elapsed ∧
    statsReport (runFuel n (initSim Strategy.FCFS q2 lines))
      = statsReport (runFuel n (initSim Strategy.FCFS q1 lines)) := by
  have key : runFuel n (initSim Strategy.FCFS q2 lines)
      = setQ (runFuel n (initSim Strategy.FCFS q1 lines)) q2 := by
    have h0 : initSim Strategy.FCFS q2 lines
        = setQ (initSim Strategy.FCFS q1 lines) q2 := rfl
    rw [h0]
    exact runFuel_setQ n (initSim Strategy.FCFS q1 lines) q2
      (initSim_inv Strategy.FCFS q1 lines hw hq1) rfl
  rw [key]
  exact ⟨rfl, rfl, rfl⟩

theorem C8_witness :
    (runFuel 100 (initSim Strategy.FCFS 5 [[2, 3, 2], [5]])).events
      = (runFuel 100 (initSim Strategy.FCFS 2 [[2, 3, 2], [5]])).events :=
  (C8_fcfs_ignores_quantum [[2, 3, 2], [5]] (by unfold WFInput; decide) 2 5
    (by decide) (by decide) 100).1


/-! ### Claim C6: the final statistics report -/

/-- C6: at any terminal state, the code's report equals one record per
completion entry in the order of the spec's stable sort by completion time
(ties in original append order — here both orders coincide because
completion times are strictly increasing), and each record carries
turnaround = the recorded completion time and wait = turnaround minus
(total CPU + total I/O); moreover exactly one record is emitted per
process. -/
theorem C6_stats_report (strat : Strategy) (q : Int) (lines : List (List Int))
    (hw : WFInput lines) (hq : 1 ≤ q) (n : Nat)
    (hterm : runStep (runFuel n (initSim strat q lines)) = none) :
    statsReport (runFuel n (initSim strat q lines))
      = (specSortByCompletionTime (runFuel n (initSim strat q lines)).completed).map
          (fun e => (e.2, e.1,
            e.1 - ((getP (runFuel n (initSim strat q lines)) e.2).total_cpu
                   + (getP (runFuel n (initSim strat q lines)) e.2).total_io))) ∧
    (∀ j, j < lines.length →
      ((statsReport (runFuel n (initSim strat q lines))).map (fun r => r.1)).count j
        = 1) := by
  obtain ⟨inv, _, _, _, _, L, _⟩ :=
    runFuel_inv n (initSim strat q lines) (initSim_inv strat q lines hw hq)
  have hsortedC : SortedLt cmpC (runFuel n (initSim strat q lines)).completed := by
    refine inv.timesInc.imp ?_
    intro a b hab
    show cmpC b a = false
    unfold cmpC
    rw [if_neg (by omega)]
    exact decide_eq_false (by omega)
  have hsortedT : SortedLt cmpTimeOnly
      (runFuel n (initSim strat q lines)).completed := by
    refine inv.timesInc.imp ?_
    intro a b hab
    show cmpTimeOnly b a = false
    unfold cmpTimeOnly
    exact decide_eq_false (by omega)
  have heqC : sortC (runFuel n (initSim strat q lines)).completed
      = (runFuel n (initSim strat q lines)).completed :=
    stableSortBy_eq_self cmpC _ hsortedC
  have heqT : specSortByCompletionTime (runFuel n (initSim strat q lines)).completed
      = (runFuel n (initSim strat q lines)).completed :=
    stableSortBy_eq_self cmpTimeOnly _ hsortedT
  constructor
  · simp only [statsReport]
    rw [heqC, heqT]
    refine List.map_congr_left ?_
    intro e he
    have hct := inv.complTime e he
    show (e.2, (getP (runFuel n (initSim strat q lines)) e.2).completion_time,
        (getP (runFuel n (initSim strat q lines)) e.2).completion_time
          - ((getP (runFuel n (initSim strat q lines)) e.2).total_cpu
             + (getP (runFuel n (initSim strat q lines)) e.2).total_io))
      = (e.2, e.1,
        e.1 - ((getP (runFuel n (initSim strat q lines)) e.2).total_cpu
               + (getP (runFuel n (initSim strat q lines)) e.2).total_io))
    rw [hct]
  · intro j hj
    obtain ⟨hrd, hbl⟩ := (runStep_none_iff _).mp hterm
    have hj' : j < (runFuel n (initSim strat q lines)).procs.length := by
      rw [L]
      show j < (initProcs 0 lines).length
      rw [initProcs_length]
      exact hj
    have h2 := inv.uniq j hj'
    rw [hrd, hbl] at h2
    simp only [runExtra, List.count_nil] at h2
    have hb0 : countB [] j = 0 := rfl
    have hc1 : countC (runFuel n (initSim strat q lines)).completed j = 1 := by
      rw [hb0] at h2
      omega
    have hmm : (statsReport (runFuel n (initSim strat q lines))).map (fun r => r.1)
        = (sortC (runFuel n (initSim strat q lines)).completed).map (fun e => e.2) := by
      simp only [statsReport, List.map_map]
      rfl
    rw [hmm, heqC, count_map_key (fun e => e.2)
      (runFuel n (initSim strat q lines)).completed j]
    exact hc1

theorem C6_witness :
    ((statsReport (runFuel 100 (initSim Strategy.FCFS 2 [[2, 3, 2], [5]]))).map
      (fun r => r.1)).count 1 = 1 :=
  (C6_stats_report Strategy.FCFS 2 [[2, 3, 2], [5]] (by unfold WFInput; decide)
    (by decide) 100
    (by
      rw [runFuel_eq_of_isSome 100 100 (initSim Strategy.FCFS 2 [[2, 3, 2], [5]])
        (by rfl)]
      exact runStepF_sound 100 _ none (by rfl))).2 1 (by decide)

end Sched
